import Mathlib

/-!
Verification of the LittleBrother supervisor plugin core (supervisor client,
stream watchdog, action gatekeeper, result sanitizer) against its
natural-language specification.

Strings are modeled as `List Char` (named `Str` below); JavaScript string
primitives (`slice`, `length`, `toLowerCase`, `includes`, template literals)
become the corresponding list operations.  Fallible JavaScript code
(`try`/`catch`) is modeled with `Option`/`Except`.  Timestamps
(`Date.now()`) are modeled as integers supplied as explicit parameters.
-/

namespace LittleBrother

/-- Strings as lists of characters. -/
abbrev Str := List Char

/-- JavaScript `s.toLowerCase()` (ASCII range, which covers tool names). -/
def strLower (s : Str) : Str := s.map Char.toLower

/-- JavaScript `s.toUpperCase()` (ASCII range). -/
def strUpper (s : Str) : Str := s.map Char.toUpper

/-! ## Decision protocol (src/types.ts `SupervisorDecision`) -/

/-- The six decision kinds of `SupervisorDecision.status`. -/
inductive DecisionStatus where
  | OK | ABORT | ALLOW | BLOCK | SAFE | REDACT
deriving DecidableEq, Repr

/-- `SupervisorDecision` from src/types.ts: status, reason, optional replacement. -/
structure Decision where
  status : DecisionStatus
  reason : Str
  replacement : Option Str := none
deriving DecidableEq, Repr

/-! ## Action gatekeeper (action-gatekeeper.ts `createActionGatekeeper`) -/

/-- `GatekeeperConfig` from src/config.ts (the `enabled`/`blockedTools`/
`alwaysAllowTools` block). -/
structure GatekeeperConfig where
  enabled : Bool
  blockedTools : List Str
  alwaysAllowTools : List Str

/-- Outcome of the synchronous triage part of the gatekeeper handler, before
any supervisor query is issued.  `askSupervisor` is the only outcome that
leads to a supervisor query. -/
inductive GkAction where
  | skip
  | block (reason : Str)
  | allowListed
  | askSupervisor
deriving DecidableEq, Repr

/-- The reason string built at action-gatekeeper.ts line 168:
`Tool "<tool>" is blocked by policy`. -/
def blockedReason (tool : Str) : Str :=
  "Tool \"".toList ++ tool ++ "\" is blocked by policy".toList

/-- Triage phase of the gatekeeper `tool.execute.before` handler
(action-gatekeeper.ts lines 161-177): disabled/internal guard, then the
case-insensitive blocked-list check, then the case-insensitive
always-allow check, else fall through to the supervisor query. -/
def gatekeeperTriage (cfg : GatekeeperConfig) (isInternal : Bool) (tool : Str) :
    GkAction :=
  if !cfg.enabled then .skip
  else if isInternal then .skip
  else
    let toolName := strLower tool
    if cfg.blockedTools.any (fun t => strLower t == toolName) then
      .block (blockedReason tool)
    else if cfg.alwaysAllowTools.any (fun t => strLower t == toolName) then
      .allowListed
    else .askSupervisor

/-! ## Watchdog chat-message handler (stream-watchdog.ts `handleChatMessage`) -/

/-- A chat message part (`{ type, text? }`). -/
structure ChatPart where
  type : Str
  text : Option Str

/-- `output.parts?.filter((p) => p.type === 'text' && p.text)` mapped to the
texts: keeps parts whose type is `text` and whose text is truthy
(present and nonempty). -/
def chatTextParts (parts : List ChatPart) : List Str :=
  parts.filterMap fun p =>
    if p.type == "text".toList then
      match p.text with
      | some t => if t.isEmpty then none else some t
      | none => none
    else none

/-- `handleChatMessage` (stream-watchdog.ts lines 133-147) acting on the
session's `userGoal` field: if the session is internal or there are no
truthy text parts the goal is left alone, otherwise it is set to the
texts joined with a space and sliced to 500 characters. -/
def handleChatMessage (isInternal : Bool) (parts : List ChatPart)
    (userGoal : Option Str) : Option Str :=
  if isInternal then userGoal
  else
    let texts := chatTextParts parts
    if texts.isEmpty then userGoal
    else some ((List.intercalate " ".toList texts).take 500)

/-! ## Supervisor retry loop (supervisor-client.ts `callWithRetry`) -/

/-- Observable trace of one `callWithRetry` run: the final result, the
number of `callOnce` attempts issued, and the sleep durations awaited
between attempts, in order. -/
structure RetryTrace where
  result : Except Str Decision
  attemptsMade : Nat
  sleeps : List Nat
deriving Repr

/-- The backoff delay before retrying after attempt number `attempt`
(0-based): `250 * 2 ** attempt` (supervisor-client.ts line 214). -/
def backoffDelay (attempt : Nat) : Nat := 250 * 2 ^ attempt

/-- The retry loop of supervisor-client.ts lines 198-220, run from attempt
number `attempt` with `rem` further attempts allowed after the current one.
`oracle k` is the outcome of `callOnce` on attempt `k`. -/
def callWithRetryFrom (oracle : Nat → Except Str Decision) :
    Nat → Nat → RetryTrace
  | attempt, rem =>
    match oracle attempt with
    | .ok d => ⟨.ok d, 1, []⟩
    | .error e =>
      match rem with
      | 0 => ⟨.error e, 1, []⟩
      | rem' + 1 =>
        let t := callWithRetryFrom oracle (attempt + 1) rem'
        ⟨t.result, t.attemptsMade + 1, backoffDelay attempt :: t.sleeps⟩

/-- `callWithRetry` with its default `retries = 2`: attempts 0, 1, 2. -/
def callWithRetry (oracle : Nat → Except Str Decision) : RetryTrace :=
  callWithRetryFrom oracle 0 2

/-! ## Stream watchdog (stream-watchdog.ts) -/

/-- `WatchdogConfig` from src/config.ts. -/
structure WatchdogConfig where
  enabled : Bool
  checkIntervalTokens : Nat
  maxBufferTokens : Nat

/-- `SessionState` from src/types.ts.  `lastSupervisorFailureToastAt` is a
`Date.now()` timestamp; timestamps are integers here. -/
structure SessionState where
  userGoal : Option Str := none
  tokenBuffer : List Str := []
  lastCheckTokenCount : Nat := 0
  aborting : Bool := false
  lastSupervisorFailureToastAt : Option Int := none
deriving Repr

/-- The fresh state made by `getOrCreateSessionState`
(stream-watchdog.ts line 20). -/
def freshSessionState : SessionState :=
  { tokenBuffer := [], lastCheckTokenCount := 0, aborting := false }

/-- Total buffered length: `tokenBuffer.reduce((sum, t) => sum + t.length, 0)`
(stream-watchdog.ts line 54). -/
def bufferTotal (buf : List Str) : Nat := (buf.map List.length).sum

/-- The FIFO eviction loop of stream-watchdog.ts lines 61-64:
`while (remaining > max && buffer.length > 0) remaining -= shift().length`.
Returns the final `remaining` and the surviving buffer. -/
def evictLoop (maxB : Nat) : Nat → List Str → Nat × List Str
  | remaining, [] => (remaining, [])
  | remaining, f :: rest =>
    if maxB < remaining then evictLoop maxB (remaining - f.length) rest
    else (remaining, f :: rest)

/-- A `message.part.updated`-style event as consumed by `handleEvent`:
the part's type and sessionID together with the delta.  `none` components
model absent (`undefined`) fields. -/
structure WatchdogEvent where
  eventType : Str
  partType : Option Str
  sessionID : Str
  delta : Option Str

/-- JavaScript `hay.includes(needle)`: some contiguous slice of `hay`
equals `needle`. -/
def strIncludes (needle hay : Str) : Bool :=
  (List.range (hay.length + 1)).any
    (fun i => (hay.drop i).take needle.length == needle)

/-- The anti-recursion sentinel check `delta.includes('[LittleBrother]')`
(stream-watchdog.ts line 50). -/
def containsMarker (s : Str) : Bool :=
  strIncludes "[LittleBrother]".toList s

/-- `handleEvent` (stream-watchdog.ts lines 34-73) as a function of the
watchdog config, the internal-session predicate result, whether a check is
already pending for the session, the event, and the session's current state
(`none` when the registry has no entry yet).  Returns the state left in the
registry (`none` when the handler returned before `getOrCreateSessionState`)
and whether a new supervisor check was dispatched. -/
def handleEvent (cfg : WatchdogConfig) (isInternal : Bool) (pendingCheck : Bool)
    (ev : WatchdogEvent) (st? : Option SessionState) :
    Option SessionState × Bool :=
  if !cfg.enabled then (st?, false)
  else if ev.eventType ≠ "message.part.updated".toList then (st?, false)
  else if ev.partType ≠ some "text".toList then (st?, false)
  else if isInternal then (st?, false)
  else
    match ev.delta with
    | none => (st?, false)
    | some delta =>
      if delta.isEmpty then (st?, false)
      else
        let st := st?.getD freshSessionState
        if st.aborting then (some st, false)
        else if containsMarker delta then (some st, false)
        else
          let buf := st.tokenBuffer ++ [delta]
          let totalChars := bufferTotal buf
          if (cfg.checkIntervalTokens : Int) ≤
              (totalChars : Int) - (st.lastCheckTokenCount : Int) then
            let buf' :=
              if cfg.maxBufferTokens < totalChars then
                (evictLoop cfg.maxBufferTokens totalChars buf).2
              else buf
            let st' : SessionState :=
              { st with tokenBuffer := buf', lastCheckTokenCount := totalChars }
            (some st', !pendingCheck)
          else (some { st with tokenBuffer := buf }, false)

/-- Observable side effects of `performSupervisorCheck`. -/
inductive WatchdogEffect where
  | injectMessage (text : Str)
  | toast (text : Str)
  | abortRequest
deriving DecidableEq, Repr

/-- `shouldShowFailureToast` (stream-watchdog.ts lines 26-32): rate limits
the fail-open warning toast to one per 30 seconds per session, updating the
session's `lastSupervisorFailureToastAt` when it fires. -/
def shouldShowFailureToast (now : Int) (st : SessionState) :
    Bool × SessionState :=
  let last := st.lastSupervisorFailureToastAt.getD 0
  if now - last < 30000 then (false, st)
  else (true, { st with lastSupervisorFailureToastAt := some now })

/-- The decision-handling part of `performSupervisorCheck`
(stream-watchdog.ts lines 75-131), given the outcome of the supervisor query
(`.error` when the query rejected after its retries).  Returns the updated
session state and the effects performed after the query settled, in order.
Notification and abort calls swallow their own failures
(utils/notifications.ts, and the try/catch around `session.abort`), so they
are recorded as effects unconditionally. -/
def performSupervisorCheck (failOpen : Bool) (now : Int) (st : SessionState)
    (qres : Except Str Decision) : SessionState × List WatchdogEffect :=
  match qres with
  | .ok d =>
    if d.status = .ABORT then
      ({ st with aborting := true },
       [.injectMessage ("Session aborted: ".toList ++ d.reason),
        .toast ("Aborted: ".toList ++ d.reason),
        .abortRequest])
    else (st, [])
  | .error _ =>
    if !failOpen then
      ({ st with aborting := true },
       [.injectMessage "Supervisor unavailable (fail-closed) - aborting session".toList,
        .toast "Supervisor unavailable - aborting session (fail-closed)".toList,
        .abortRequest])
    else
      let res := shouldShowFailureToast now st
      (res.2,
       if res.1 then
         [.toast "Supervisor unavailable - watchdog skipped (fail-open)".toList]
       else [])

/-! ## A small regex model for the sanitizer's secret patterns

The five `SECRET_PATTERNS` regular expressions of result-sanitizer.ts use
only literals, single-character classes with `?` / `*` / `+` / `{n,}`
quantifiers, and alternation.  `Mre` is exactly that fragment, with
JavaScript's leftmost, greedy, backtracking match semantics implemented by
`mrun` below. -/

/-- Regex fragment: `eps` the empty regex, `lit` a literal (optionally
case-insensitive), `one` a single character of a class, `cls p lo` a greedy
`[class]{lo,}` repetition, `opt1` a greedy optional class character,
`seq` concatenation and `alt` ordered alternation. -/
inductive Mre where
  | eps
  | lit (l : Str) (ci : Bool)
  | one (p : Char → Bool)
  | cls (p : Char → Bool) (lo : Nat)
  | opt1 (p : Char → Bool)
  | seq (a b : Mre)
  | alt (a b : Mre)

/-- Character comparison, optionally case-insensitive (ASCII folding, the
relevant range for these patterns). -/
def ciEq (ci : Bool) (a b : Char) : Bool :=
  if ci then a.toLower == b.toLower else a == b

/-- Whether `w` is letter-for-letter the literal `l` under `ciEq`. -/
def litEqB (l : Str) (ci : Bool) (w : Str) : Bool :=
  w.length == l.length && (List.zip w l).all (fun ab => ciEq ci ab.1 ab.2)

/-- Length of the maximal prefix of `s` made of class characters. -/
def runLen (p : Char → Bool) : Str → Nat
  | [] => 0
  | c :: rest => if p c then runLen p rest + 1 else 0

/-- Greedy backtracking over a class run: try consuming `i` characters,
then `i-1`, ... down to `lo`, resuming the continuation `k` each time. -/
def clsTryFrom (k : Str → Option Str) (s : Str) (lo : Nat) : Nat → Option Str
  | 0 => if lo = 0 then k s else none
  | i + 1 =>
    if lo ≤ i + 1 then
      match k (s.drop (i + 1)) with
      | some o => some o
      | none => clsTryFrom k s lo i
    else none

/-- Backtracking matcher with continuation: `mrun r s k` tries to match `r`
against a prefix of `s` (longest options first, alternatives in order,
mirroring the JavaScript engine on this fragment) and passes the remainder
to `k`. -/
def mrun : Mre → Str → (Str → Option Str) → Option Str
  | .eps, s, k => k s
  | .lit l ci, s, k =>
    if litEqB l ci (s.take l.length) then k (s.drop l.length) else none
  | .one p, s, k =>
    match s with
    | [] => none
    | c :: rest => if p c then k rest else none
  | .cls p lo, s, k =>
    let m := runLen p s
    if lo ≤ m then clsTryFrom k s lo m else none
  | .opt1 p, s, k =>
    match s with
    | [] => k []
    | c :: rest =>
      if p c then
        match k rest with
        | some o => some o
        | none => k (c :: rest)
      else k (c :: rest)
  | .seq a b, s, k => mrun a s (fun s' => mrun b s' k)
  | .alt a b, s, k =>
    match mrun a s k with
    | some o => some o
    | none => mrun b s k

/-- Declarative language of a regex: which words it matches exactly. -/
def inL : Mre → Str → Prop
  | .eps, w => w = []
  | .lit l ci, w => litEqB l ci w = true
  | .one p, w => ∃ c, w = [c] ∧ p c = true
  | .cls p lo, w => lo ≤ w.length ∧ ∀ c ∈ w, p c = true
  | .opt1 p, w => w = [] ∨ ∃ c, w = [c] ∧ p c = true
  | .seq a b, w => ∃ u v, w = u ++ v ∧ inL a u ∧ inL b v
  | .alt a b, w => inL a w ∨ inL b w

/-- Greedy match length of `r` at the start of `s`, if any. -/
def mrunHead (r : Mre) (s : Str) : Option Nat :=
  (mrun r s (fun rest => some rest)).map (fun rest => s.length - rest.length)

/-- Leftmost match of `r` in `s`: position and greedy length. -/
def findMatch (r : Mre) : Str → Option (Nat × Nat)
  | [] =>
    match mrunHead r [] with
    | some n => some (0, n)
    | none => none
  | c :: rest =>
    match mrunHead r (c :: rest) with
    | some n => some (0, n)
    | none => (findMatch r rest).map (fun p => (p.1 + 1, p.2))

/-- JavaScript `content.match(pattern) !== null` for a global pattern. -/
def hasMatchB (r : Mre) (s : Str) : Bool := (findMatch r s).isSome

/-- JavaScript `String.prototype.replace` with a global regex: repeatedly
replace the leftmost match and continue scanning after it (advancing one
character past zero-length matches).  The fuel is an upper bound on the
number of replacements; `replaceAll` supplies enough. -/
def replaceAllFuel (r : Mre) (marker : Str) : Nat → Str → Str
  | 0, s => s
  | fuel + 1, s =>
    match findMatch r s with
    | none => s
    | some (i, n) =>
      if n = 0 then
        s.take i ++ marker ++
          (match s.drop i with
           | [] => []
           | c :: rest => c :: replaceAllFuel r marker fuel rest)
      else
        s.take i ++ marker ++ replaceAllFuel r marker fuel (s.drop (i + n))

/-- `content.replace(pattern, marker)` for a global `pattern`. -/
def replaceAll (r : Mre) (marker : Str) (s : Str) : Str :=
  replaceAllFuel r marker (s.length + 1) s

/-- Some prefix of `s` is a word of `r`: a match starts at position 0. -/
def StartsMatch (r : Mre) (s : Str) : Prop :=
  ∃ u v, s = u ++ v ∧ inL r u

/-- Some substring of `s` is a word of `r`. -/
def HasMatch (r : Mre) (s : Str) : Prop :=
  ∃ i, StartsMatch r (s.drop i)

/-- Every literal (under its case mode) and every character class of the
regex only produces characters satisfying `P`. -/
def litsClosedUnder (P : Char → Bool) : Mre → Prop
  | .eps => True
  | .lit l ci => ∀ c' c, c ∈ l → ciEq ci c' c = true → P c' = true
  | .one p => ∀ c, p c = true → P c = true
  | .cls p _ => ∀ c, p c = true → P c = true
  | .opt1 p => ∀ c, p c = true → P c = true
  | .seq a b => litsClosedUnder P a ∧ litsClosedUnder P b
  | .alt a b => litsClosedUnder P a ∧ litsClosedUnder P b

/-- Characters that are neither an opening nor a closing square bracket —
the redaction marker is delimited by brackets, and four of the five secret
patterns can never match a bracket. -/
def noBracketCh (c : Char) : Bool := !(c == '[') && !(c == ']')

/-- Words of the regex are nonempty and start with a `P` character (used
with `P := isNonSpace`: every secret-pattern match begins with a non-space
character). -/
def headClosedUnder (P : Char → Bool) : Mre → Prop
  | .eps => False
  | .lit l ci =>
    l ≠ [] ∧ ∀ c' c, l.head? = some c → ciEq ci c' c = true → P c' = true
  | .one p => ∀ c, p c = true → P c = true
  | .cls p lo => 1 ≤ lo ∧ ∀ c, p c = true → P c = true
  | .opt1 _ => False
  | .seq a _ => headClosedUnder P a
  | .alt a b => headClosedUnder P a ∧ headClosedUnder P b

/-- Characterization of one `String.replace` pass as a relation between
input and output: either no match exists and the input passes through, or
the leftmost (greedy) match is replaced by the marker and scanning resumes
after it. -/
inductive RepOut (q : Mre) (marker : Str) : Str → Str → Prop where
  | noMatch {s : Str} : findMatch q s = none → RepOut q marker s s
  | rep {s out' : Str} {i n : Nat} :
      findMatch q s = some (i, n) → 0 < n →
      RepOut q marker (s.drop (i + n)) out' →
      RepOut q marker s (s.take i ++ marker ++ out')

/-! ### The five `SECRET_PATTERNS` (result-sanitizer.ts lines 167-173) -/

/-- JavaScript `\s` (whitespace class): tab, line feed, vertical tab, form
feed, carriage return, space, and the Unicode space characters U+00A0,
U+1680, U+2000-U+200A (the range, compared on codepoints), U+2028, U+2029,
U+202F, U+205F, U+3000, U+FEFF. -/
def isJsSpace (c : Char) : Bool :=
  c == '\t' || c == '\n' || c == '\x0b' || c == '\x0c' || c == '\r' ||
  c == ' ' || c == '\u00A0' || c == '\u1680' ||
  (8192 ≤ c.toNat && c.toNat ≤ 8202) || c == '\u2028' || c == '\u2029' ||
  c == '\u202F' || c == '\u205F' || c == '\u3000' || c == '\uFEFF'

/-- JavaScript `\w`: `[A-Za-z0-9_]`. -/
def isWordCh (c : Char) : Bool :=
  ('a' ≤ c && c ≤ 'z') || ('A' ≤ c && c ≤ 'Z') || ('0' ≤ c && c ≤ '9') ||
  c == '_'

/-- The single-quote character (codepoint 39). -/
def squote : Char := Char.ofNat 39

/-- `['"]`. -/
def isQuoteCh (c : Char) : Bool := c == squote || c == '"'

/-- `[\s:=]`. -/
def isSepCh (c : Char) : Bool := isJsSpace c || c == ':' || c == '='

/-- The class of `\w`, dash, slash, plus and equals characters. -/
def isCredValueCh (c : Char) : Bool :=
  isWordCh c || c == '-' || c == '/' || c == '+' || c == '='

/-- `[\w\-]`. -/
def isKeyBodyCh (c : Char) : Bool := isWordCh c || c == '-'

/-- `[^\s]`. -/
def isNonSpace (c : Char) : Bool := !isJsSpace c

/-- `[A-Za-z0-9_-]` (JWT body characters). -/
def isJwtCh (c : Char) : Bool :=
  ('a' ≤ c && c ≤ 'z') || ('A' ≤ c && c ≤ 'Z') || ('0' ≤ c && c ≤ '9') ||
  c == '_' || c == '-'

/-- Case-insensitive literal. -/
def litCI (s : String) : Mre := .lit s.toList true

/-- Case-sensitive literal. -/
def litCS (s : String) : Mre := .lit s.toList false

/-- Ordered alternation of a nonempty list of alternatives. -/
def altList : List Mre → Mre
  | [] => .eps
  | [r] => r
  | r :: rest => .alt r (altList rest)

/-- Pattern 1: the credential-assignment regex with flags `gi`: one of the
keywords `api[_-]?key|apikey|secret|password|token|auth|credential`, then
`[\s:=]+`, an optional quote, at least 20 characters of the
word-dash-slash-plus-equals class, and an optional quote. -/
def credAssignPat : Mre :=
  .seq
    (altList
      [.seq (litCI "api") (.seq (.opt1 fun c => c == '_' || c == '-') (litCI "key")),
       litCI "apikey", litCI "secret", litCI "password", litCI "token",
       litCI "auth", litCI "credential"])
    (.seq (.cls isSepCh 1)
      (.seq (.opt1 isQuoteCh) (.seq (.cls isCredValueCh 20) (.opt1 isQuoteCh))))

/-- Pattern 2: `(?:sk-|pk_|rk_|ghp_|gho_|glpat-|xox[baprs]-|AKIA|ASIA)[\w\-]{16,}`
with flag `g`. -/
def apiKeyPat : Mre :=
  .seq
    (altList
      [litCS "sk-", litCS "pk_", litCS "rk_", litCS "ghp_", litCS "gho_",
       litCS "glpat-",
       .seq (litCS "xox")
         (.seq (.one fun c => c == 'b' || c == 'a' || c == 'p' || c == 'r' || c == 's')
           (litCS "-")),
       litCS "AKIA", litCS "ASIA"])
    (.cls isKeyBodyCh 16)

/-- Pattern 3: `-----BEGIN (?:RSA |DSA |EC |OPENSSH )?PRIVATE KEY-----`
with flag `g`. -/
def pemHeaderPat : Mre :=
  .seq (litCS "-----BEGIN ")
    (.seq (altList [litCS "RSA ", litCS "DSA ", litCS "EC ", litCS "OPENSSH ", .eps])
      (litCS "PRIVATE KEY-----"))

/-- Pattern 4:
`(?:mongodb(?:\+srv)?|postgres(?:ql)?|mysql|redis):\/\/[^\s]+:[^\s]+@[^\s]+`
with flags `gi`. -/
def dbUriPat : Mre :=
  .seq
    (altList
      [.seq (litCI "mongodb") (.alt (litCI "+srv") .eps),
       .seq (litCI "postgres") (.alt (litCI "ql") .eps),
       litCI "mysql", litCI "redis"])
    (.seq (litCS "://")
      (.seq (.cls isNonSpace 1)
        (.seq (litCS ":")
          (.seq (.cls isNonSpace 1) (.seq (litCS "@") (.cls isNonSpace 1))))))

/-- Pattern 5: `eyJ[A-Za-z0-9_-]*\.eyJ[A-Za-z0-9_-]*\.[A-Za-z0-9_-]*`
with flag `g`. -/
def jwtPat : Mre :=
  .seq (litCS "eyJ")
    (.seq (.cls isJwtCh 0)
      (.seq (litCS ".")
        (.seq (litCS "eyJ")
          (.seq (.cls isJwtCh 0) (.seq (litCS ".") (.cls isJwtCh 0))))))

/-- `SECRET_PATTERNS`, in source order. -/
def SECRET_PATTERNS : List Mre :=
  [credAssignPat, apiKeyPat, pemHeaderPat, dbUriPat, jwtPat]

/-- The fixed redaction replacement `'[REDACTED: Potential secret]'`
(result-sanitizer.ts line 208). -/
def redactionMarker : Str := "[REDACTED: Potential secret]".toList

/-! ## Result sanitizer (result-sanitizer.ts `createResultSanitizer`) -/

/-- `SanitizerConfig` from src/config.ts. -/
structure SanitizerConfig where
  enabled : Bool
  maxOutputChars : Nat
  redactSecrets : Bool
  deepAnalysis : Bool

/-- The truncation marker appended at result-sanitizer.ts line 196:
`\n\n[TRUNCATED: Output exceeded <N> characters]`. -/
def truncationMarker (n : Nat) : Str :=
  "\n\n[TRUNCATED: Output exceeded ".toList ++ (Nat.repr n).toList ++
    " characters]".toList

/-- Truncation step (result-sanitizer.ts lines 194-199): if the content is
longer than `maxOutputChars`, keep the first `maxOutputChars` characters and
append the marker; the Bool reports whether the step modified the content. -/
def truncateStep (maxOutputChars : Nat) (content : Str) : Str × Bool :=
  if maxOutputChars < content.length then
    (content.take maxOutputChars ++ truncationMarker maxOutputChars, true)
  else (content, false)

/-- One iteration of the redaction loop (result-sanitizer.ts lines 202-211):
if the pattern matches the content, replace every match with the marker. -/
def redactOne (content : Str) (r : Mre) : Str × Bool :=
  if hasMatchB r content then (replaceAll r redactionMarker content, true)
  else (content, false)

/-- The full redaction loop over `SECRET_PATTERNS`; the Bool latches whether
any pattern matched. -/
def redactStep (content : Str) : Str × Bool :=
  SECRET_PATTERNS.foldl
    (fun acc r =>
      let res := redactOne acc.1 r
      (res.1, acc.2 || res.2))
    (content, false)

/-- The deep-analysis redaction of result-sanitizer.ts lines 228-236:
content is replaced only when the decision is `REDACT` and its `replacement`
is truthy (present and nonempty). -/
def deepAnalysisStep (d : Decision) (content : Str) : Str × Bool :=
  if d.status = .REDACT then
    match d.replacement with
    | some repl => if repl.isEmpty then (content, false) else (repl, true)
    | none => (content, false)
  else (content, false)

/-- Result of the sanitizer handler: the final value of `output.output`
and whether the handler modified it. -/
structure SanitizeResult where
  output : Str
  modified : Bool
deriving Repr

/-- The `tool.execute.after` handler of result-sanitizer.ts lines 181-250:
truncation, then pattern redaction (when `redactSecrets`), then deep
analysis (when `deepAnalysis` and nothing is modified yet and the content
exceeds 1000 characters; `deep` is the outcome of the supervisor query),
finally writing the content back iff modified. -/
def resultSanitizer (cfg : SanitizerConfig) (isInternal : Bool)
    (deep : Except Str Decision) (original : Str) : SanitizeResult :=
  if !cfg.enabled then ⟨original, false⟩
  else if isInternal then ⟨original, false⟩
  else
    let t := truncateStep cfg.maxOutputChars original
    let r := if cfg.redactSecrets then redactStep t.1 else (t.1, false)
    let modified1 := t.2 || r.2
    let d :=
      if cfg.deepAnalysis && !modified1 && decide (1000 < r.1.length) then
        match deep with
        | .ok dec => deepAnalysisStep dec r.1
        | .error _ => (r.1, false)
      else (r.1, false)
    if modified1 || d.2 then ⟨d.1, true⟩ else ⟨original, false⟩

/-! ## JSON model (for supervisor-client.ts `parseResponse`)

`JSON.parse` is modeled by a recursive-descent parser over `Str`.  Numeric
literals are kept as their lexemes (`Json.num`); the only JavaScript
operations applied to parsed values here are property access,
truthiness tests and `String(...)` conversion, modeled below. -/

/-- Parsed JSON values. -/
inductive Json where
  | null
  | bool (b : Bool)
  | num (lex : Str)
  | str (s : Str)
  | arr (elems : List Json)
  | obj (fields : List (Str × Json))
deriving Repr

/-- JSON insignificant whitespace. -/
def isJsonWs (c : Char) : Bool :=
  c == ' ' || c == '\t' || c == '\n' || c == '\r'

/-- Skip JSON whitespace. -/
def skipWs : Str → Str
  | [] => []
  | c :: rest => if isJsonWs c then skipWs rest else c :: rest

/-- Value of a hexadecimal digit. -/
def hexVal (c : Char) : Option Nat :=
  let n := c.toNat
  if 48 ≤ n ∧ n ≤ 57 then some (n - 48)
  else if 97 ≤ n ∧ n ≤ 102 then some (n - 87)
  else if 65 ≤ n ∧ n ≤ 70 then some (n - 55)
  else none

/-- Decoding of the single-character JSON string escapes. -/
def escChar (e : Char) : Option Char :=
  if e = '"' then some '"'
  else if e = '\\' then some '\\'
  else if e = '/' then some '/'
  else if e = 'b' then some '\x08'
  else if e = 'f' then some '\x0c'
  else if e = 'n' then some '\n'
  else if e = 'r' then some '\r'
  else if e = 't' then some '\t'
  else none

/-- Parse the body of a JSON string after the opening quote, returning the
decoded content and the input after the closing quote. -/
def parseStringBody : Str → Option (Str × Str)
  | [] => none
  | c :: rest =>
    if c = '"' then some ([], rest)
    else if c = '\\' then
      match rest with
      | 'u' :: h1 :: h2 :: h3 :: h4 :: rest3 =>
        match hexVal h1, hexVal h2, hexVal h3, hexVal h4 with
        | some a, some b, some c3, some d =>
          (parseStringBody rest3).map
            (fun p => (Char.ofNat (((a * 16 + b) * 16 + c3) * 16 + d) :: p.1, p.2))
        | _, _, _, _ => none
      | e :: rest2 =>
        match escChar e with
        | some ch => (parseStringBody rest2).map (fun p => (ch :: p.1, p.2))
        | none => none
      | [] => none
    else if c.toNat < 32 then none
    else (parseStringBody rest).map (fun p => (c :: p.1, p.2))

/-- Split off the maximal run of decimal digits. -/
def digitSpan : Str → Str × Str
  | [] => ([], [])
  | c :: rest =>
    if c.isDigit then
      let r := digitSpan rest
      (c :: r.1, r.2)
    else ([], c :: rest)

/-- Parse a JSON numeric literal, returning its lexeme and the rest. -/
def parseNumber (s : Str) : Option (Str × Str) :=
  let negPart : Str × Str :=
    match s with
    | '-' :: r => (['-'], r)
    | _ => ([], s)
  match negPart.2 with
  | [] => none
  | c :: r =>
    if c = '0' then
      let intLex := negPart.1 ++ ['0']
      parseNumberFrac intLex r
    else if c.isDigit then
      let ds := digitSpan (c :: r)
      parseNumberFrac (negPart.1 ++ ds.1) ds.2
    else none
where
  /-- Optional fraction part, then the exponent part. -/
  parseNumberFrac (lex : Str) (s : Str) : Option (Str × Str) :=
    match s with
    | '.' :: r =>
      let ds := digitSpan r
      if ds.1.isEmpty then none
      else parseNumberExp (lex ++ ['.'] ++ ds.1) ds.2
    | _ => parseNumberExp lex s
  /-- Optional exponent part. -/
  parseNumberExp (lex : Str) (s : Str) : Option (Str × Str) :=
    match s with
    | e :: r =>
      if e = 'e' ∨ e = 'E' then
        let signPart : Str × Str :=
          match r with
          | c :: r' => if c = '+' ∨ c = '-' then ([c], r') else ([], r)
          | [] => ([], r)
        let ds := digitSpan signPart.2
        if ds.1.isEmpty then none
        else some (lex ++ [e] ++ signPart.1 ++ ds.1, ds.2)
      else some (lex, e :: r)
    | [] => some (lex, [])

mutual

/-- Recursive-descent JSON value parser; `fuel` bounds the recursion depth
(`jsonParse` supplies more than enough). -/
def parseValue : Nat → Str → Option (Json × Str)
  | 0, _ => none
  | fuel + 1, s =>
    match skipWs s with
    | [] => none
    | c :: rest =>
      if c = '{' then
        match skipWs rest with
        | '}' :: r => some (.obj [], r)
        | t => parseMembers fuel t []
      else if c = '[' then
        match skipWs rest with
        | ']' :: r => some (.arr [], r)
        | t => parseElems fuel t []
      else if c = '"' then
        match parseStringBody rest with
        | some (str, r) => some (.str str, r)
        | none => none
      else if c = 't' then
        if (c :: rest).take 4 == "true".toList then
          some (.bool true, (c :: rest).drop 4)
        else none
      else if c = 'f' then
        if (c :: rest).take 5 == "false".toList then
          some (.bool false, (c :: rest).drop 5)
        else none
      else if c = 'n' then
        if (c :: rest).take 4 == "null".toList then
          some (.null, (c :: rest).drop 4)
        else none
      else
        match parseNumber (c :: rest) with
        | some (lex, r) => some (.num lex, r)
        | none => none

/-- Parse the members of an object, after the opening brace (and not at an
immediate closing brace). -/
def parseMembers : Nat → Str → List (Str × Json) → Option (Json × Str)
  | 0, _, _ => none
  | fuel + 1, s, acc =>
    match skipWs s with
    | '"' :: r =>
      match parseStringBody r with
      | some (key, r1) =>
        match skipWs r1 with
        | ':' :: r2 =>
          match parseValue fuel r2 with
          | some (v, r3) =>
            match skipWs r3 with
            | ',' :: r4 => parseMembers fuel r4 (acc ++ [(key, v)])
            | '}' :: r4 => some (.obj (acc ++ [(key, v)]), r4)
            | _ => none
          | none => none
        | _ => none
      | none => none
    | _ => none

/-- Parse the elements of an array, after the opening bracket (and not at an
immediate closing bracket). -/
def parseElems : Nat → Str → List Json → Option (Json × Str)
  | 0, _, _ => none
  | fuel + 1, s, acc =>
    match parseValue fuel s with
    | some (v, r) =>
      match skipWs r with
      | ',' :: r1 => parseElems fuel r1 (acc ++ [v])
      | ']' :: r1 => some (.arr (acc ++ [v]), r1)
      | _ => none
    | none => none

end

/-- `JSON.parse`: parse one value and require only whitespace after it. -/
def jsonParse (s : Str) : Option Json :=
  match parseValue (s.length + 1) s with
  | some (j, rest) => if (skipWs rest).isEmpty then some j else none
  | none => none

/-- JavaScript property access `v[key]` on a parsed JSON value: `none` is
`undefined`.  For objects with duplicate keys `JSON.parse` keeps the last
binding.  Access on `Json.null` is not covered here because the caller
(`parseResponse`) treats it as the thrown `TypeError`. -/
def getField (j : Json) (key : Str) : Option Json :=
  match j with
  | .obj fields => (fields.reverse.find? (fun f => f.1 == key)).map (fun f => f.2)
  | _ => none

mutual

/-- `String(v)` on a parsed JSON value.  Arrays stringify as their elements
joined with commas, `null` elements as empty; numbers stringify here as
their lexeme (JavaScript may normalize exotic numeric notations, which no
claim depends on). -/
def jsString : Json → Str
  | .null => "null".toList
  | .bool true => "true".toList
  | .bool false => "false".toList
  | .num lex => lex
  | .str s => s
  | .obj _ => "[object Object]".toList
  | .arr xs => jsStringElems xs

/-- Array elements joined with commas; `null` elements become empty. -/
def jsStringElems : List Json → Str
  | [] => []
  | [Json.null] => []
  | [x] => jsString x
  | Json.null :: rest => ",".toList ++ jsStringElems rest
  | x :: rest => jsString x ++ ",".toList ++ jsStringElems rest

end

/-- `String(v)` where `v` may be `undefined`. -/
def jsStringOpt : Option Json → Str
  | none => "undefined".toList
  | some j => jsString j

/-- Whether a numeric lexeme denotes zero (all mantissa digits are 0). -/
def numLexIsZero (lex : Str) : Bool :=
  (lex.takeWhile (fun c => c ≠ 'e' ∧ c ≠ 'E')).all
    (fun c => !c.isDigit || c == '0')

/-- JavaScript truthiness of a possibly-undefined parsed JSON value. -/
def jsTruthy : Option Json → Bool
  | none => false
  | some .null => false
  | some (.bool b) => b
  | some (.num lex) => !numLexIsZero lex
  | some (.str s) => !s.isEmpty
  | some (.arr _) => true
  | some (.obj _) => true

/-! ## Response parsing (supervisor-client.ts `parseResponse`) -/

/-- Split a string at the first character satisfying `p`: the first
component is the longest `p`-free prefix, the second the rest. -/
def breakAt (p : Char → Bool) : Str → Str × Str
  | [] => ([], [])
  | c :: rest =>
    if p c then ([], c :: rest)
    else
      let r := breakAt p rest
      (c :: r.1, r.2)

/-- The match of `rawResponse.match(/\{[\s\S]*\}/)` (supervisor-client.ts
line 255): the segment from the first opening brace through the last
closing brace after it, if both exist (the quantifier is greedy, so the
match runs to the last closing brace of the whole text). -/
def jsonExtract (raw : Str) : Option Str :=
  match (breakAt (fun c => c == '{') raw).2 with
  | [] => none
  | rest =>
    match (breakAt (fun c => c == '}') rest.reverse).2 with
    | [] => none
    | seg => some seg.reverse

/-- The safe default decision returned on any parse failure
(supervisor-client.ts line 271). -/
def parseErrorDecision : Decision :=
  ⟨.OK, "Parse error - defaulting to OK".toList, none⟩

/-- The six accepted status strings, uppercased. -/
def statusOfString (s : Str) : Option DecisionStatus :=
  if s == "OK".toList then some .OK
  else if s == "ABORT".toList then some .ABORT
  else if s == "ALLOW".toList then some .ALLOW
  else if s == "BLOCK".toList then some .BLOCK
  else if s == "SAFE".toList then some .SAFE
  else if s == "REDACT".toList then some .REDACT
  else none

/-- `parseResponse` (supervisor-client.ts lines 253-273): extract the
brace-delimited segment (else use the whole text), `JSON.parse` it,
uppercase `String(parsed.status)` and validate it against the six kinds;
any failure (including property access on a parsed `null`, which throws)
yields `parseErrorDecision`.  `reason` falls back to a fixed placeholder
when falsy; a falsy `replacement` becomes `none`. -/
def parseResponse (raw : Str) : Decision :=
  let jsonStr := (jsonExtract raw).getD raw
  match jsonParse jsonStr with
  | none => parseErrorDecision
  | some .null => parseErrorDecision
  | some parsed =>
    match statusOfString (strUpper (jsStringOpt (getField parsed "status".toList))) with
    | none => parseErrorDecision
    | some st =>
      let reasonF := getField parsed "reason".toList
      let replF := getField parsed "replacement".toList
      { status := st
        reason :=
          if jsTruthy reasonF then jsStringOpt reasonF
          else "No reason provided".toList
        replacement :=
          if jsTruthy replF then some (jsStringOpt replF) else none }

/-- Modelled from the spec: "extract the first balanced `\x7b...\x7d` JSON
object from the text".  Scans from the first opening brace and returns the
segment through the brace that balances it.  This definition follows the
spec's words (claim C1) and is compared against `jsonExtract`, which models
the source's greedy regex. -/
def firstBalanced (raw : Str) : Option Str :=
  match (breakAt (fun c => c == '{') raw).2 with
  | [] => none
  | rest => balAux rest 0 []
where
  /-- Depth-counting scan accumulating the segment. -/
  balAux : Str → Nat → Str → Option Str
    | [], _, _ => none
    | c :: rest, depth, acc =>
      if c = '{' then balAux rest (depth + 1) (acc ++ [c])
      else if c = '}' then
        if depth = 1 then some (acc ++ [c])
        else if depth = 0 then none
        else balAux rest (depth - 1) (acc ++ [c])
      else balAux rest depth (acc ++ [c])

/-- Modelled from the spec: `parseResponse` as the claim describes it, with
first-balanced-object extraction instead of the source's greedy regex. -/
def parseResponseFirstBalanced (raw : Str) : Decision :=
  let jsonStr := (firstBalanced raw).getD raw
  match jsonParse jsonStr with
  | none => parseErrorDecision
  | some .null => parseErrorDecision
  | some parsed =>
    match statusOfString (strUpper (jsStringOpt (getField parsed "status".toList))) with
    | none => parseErrorDecision
    | some st =>
      let reasonF := getField parsed "reason".toList
      let replF := getField parsed "replacement".toList
      { status := st
        reason :=
          if jsTruthy reasonF then jsStringOpt reasonF
          else "No reason provided".toList
        replacement :=
          if jsTruthy replF then some (jsStringOpt replF) else none }

/-! ## Supervisor-session creation dedup
(supervisor-client.ts `ensureSupervisorSession`, lines 167-196)

JavaScript is single-threaded: an async function runs atomically between
suspension points.  `ensureSupervisorSession` runs synchronously from entry
to its first suspension: it checks the mapping (line 168), checks the
pending map (line 171), starts the creation IIFE — which issues the
`session.create` call and suspends (line 175) — installs the pending entry
(line 190), and awaits the promise (line 192).  When the create call
resolves, the IIFE resumes, installs the mapping (line 186) and resolves its
promise; the owner's `finally` (line 194) then removes the pending entry,
and every caller whose `ensureSupervisorSession` returned proceeds to its
prompt call (`callOnce`, line 231).  The transition system below has exactly
these atomic blocks as steps, for `n` concurrent `query` callers targeting
one main session whose supervisor session does not exist yet and whose
creation succeeds. -/

/-- Phase of one concurrent `query` caller. -/
inductive CallerPhase where
  | start
  | awaitingCreate
  | awaitingPending
  | done
deriving DecidableEq, Repr

/-- Global state shared by `n` concurrent callers: the
`supervisorSessionByMainSession` entry, the `creatingSupervisorSession`
entry, whether the create call has resolved, counters of issued
`session.create` and `session.prompt` calls, and each caller's phase. -/
structure EnsureState (n : Nat) where
  mapping : Bool
  pending : Bool
  resolved : Bool
  createCalls : Nat
  promptCalls : Nat
  phase : Fin n → CallerPhase

/-- Initial state: fresh main session, no calls issued, all callers about
to run `ensureSupervisorSession`. -/
def EnsureState.init (n : Nat) : EnsureState n :=
  ⟨false, false, false, 0, 0, fun _ => .start⟩

/-- The atomic transitions of the system. -/
inductive EnsureStep : {n : Nat} → EnsureState n → EnsureState n → Prop where
  /-- Lines 168-169: the caller finds the mapping installed;
  `ensureSupervisorSession` returns it and the caller issues its prompt. -/
  | hitMapping {n} (i : Fin n) (s : EnsureState n) :
      s.phase i = .start → s.mapping = true →
      EnsureStep s { s with promptCalls := s.promptCalls + 1,
                            phase := Function.update s.phase i .done }
  /-- Lines 171-172: the caller finds an in-flight creation and awaits
  that same future instead of creating. -/
  | hitPending {n} (i : Fin n) (s : EnsureState n) :
      s.phase i = .start → s.mapping = false → s.pending = true →
      EnsureStep s { s with phase := Function.update s.phase i .awaitingPending }
  /-- Lines 174-192: no mapping and no pending entry: the caller issues the
  `session.create` call, installs the pending entry and awaits. -/
  | beginCreate {n} (i : Fin n) (s : EnsureState n) :
      s.phase i = .start → s.mapping = false → s.pending = false →
      EnsureStep s { s with createCalls := s.createCalls + 1,
                            pending := true,
                            phase := Function.update s.phase i .awaitingCreate }
  /-- Lines 183-187: the create call resolves; the IIFE installs the
  mapping and resolves the creation promise (in that order, atomically). -/
  | resolveCreate {n} (s : EnsureState n) :
      s.pending = true → s.resolved = false →
      EnsureStep s { s with mapping := true, resolved := true }
  /-- Lines 192-195: the owner's await returns; the `finally` removes the
  pending entry and the caller issues its prompt. -/
  | ownerReturn {n} (i : Fin n) (s : EnsureState n) :
      s.phase i = .awaitingCreate → s.resolved = true →
      EnsureStep s { s with pending := false,
                            promptCalls := s.promptCalls + 1,
                            phase := Function.update s.phase i .done }
  /-- A caller awaiting the shared future resumes after it resolved and
  issues its prompt. -/
  | waiterReturn {n} (i : Fin n) (s : EnsureState n) :
      s.phase i = .awaitingPending → s.resolved = true →
      EnsureStep s { s with promptCalls := s.promptCalls + 1,
                            phase := Function.update s.phase i .done }

/-- States reachable from the initial state by interleaving the atomic
blocks. -/
inductive EnsureReach : {n : Nat} → EnsureState n → Prop where
  | init (n : Nat) : EnsureReach (EnsureState.init n)
  | step {n} {s s' : EnsureState n} :
      EnsureReach s → EnsureStep s s' → EnsureReach s'

/-- Number of callers that have completed (and hence issued their prompt). -/
def doneCount {n : Nat} (s : EnsureState n) : Nat :=
  (Finset.univ.filter (fun i => s.phase i = CallerPhase.done)).card

/-- Inductive invariant of the creation protocol: exactly one create call
has been issued iff a creation is pending or has resolved; the mapping is
installed exactly when the creation resolved; a caller only completes after
resolution; prompts are counted by completed callers. -/
def EnsureInv {n : Nat} (s : EnsureState n) : Prop :=
  (s.createCalls = if s.pending || s.resolved then 1 else 0)
  ∧ (s.resolved = true → s.mapping = true)
  ∧ (s.mapping = true → s.resolved = true)
  ∧ (∀ i, s.phase i = .done → s.resolved = true)
  ∧ s.promptCalls = doneCount s

/-! # Theorems -/

/-! ## C2: blocked tools are blocked immediately -/

/-- C2: for every tool-invocation request whose tool name matches an entry
of `gatekeeper.blockedTools` case-insensitively (on a non-internal session
with the gatekeeper enabled), triage blocks immediately with reason
`Tool "<tool>" is blocked by policy` — the `GatekeeperBlockError` throw —
and does not reach the supervisor query (which only the `askSupervisor`
outcome does), regardless of `alwaysAllowTools`. -/
theorem gatekeeper_blockedTool_blocks_immediately
    (cfg : GatekeeperConfig) (tool : Str)
    (henabled : cfg.enabled = true)
    (hmatch : ∃ t ∈ cfg.blockedTools, strLower t = strLower tool) :
    gatekeeperTriage cfg false tool = .block (blockedReason tool) := by
  obtain ⟨t, ht, heq⟩ := hmatch
  have hany : cfg.blockedTools.any (fun t' => strLower t' == strLower tool) = true := by
    rw [List.any_eq_true]
    exact ⟨t, ht, by simp [heq]⟩
  simp [gatekeeperTriage, henabled, hany]

/-- C2 witness: the spec's scenario `blockedTools = ["rm"]`, tool `"rm"`
(with `"rm"` also always-allowed, to exercise precedence). -/
theorem gatekeeper_blockedTool_blocks_immediately_witness :
    gatekeeperTriage ⟨true, ["rm".toList], ["rm".toList]⟩ false "RM".toList =
      .block (blockedReason "RM".toList) :=
  gatekeeper_blockedTool_blocks_immediately _ _ rfl ⟨"rm".toList, by simp, by decide⟩

/-! ## C9: userGoal capture (corrected: every chat message overwrites) -/

/-- C9 counterexample: the claim says chat messages arriving after the goal
has been captured leave the recorded `userGoal` unchanged; but a second chat
message overwrites the goal recorded from the first. -/
theorem userGoal_overwritten_counterexample :
    handleChatMessage false [⟨"text".toList, some "first goal".toList⟩] none =
      some "first goal".toList
    ∧ handleChatMessage false [⟨"text".toList, some "second goal".toList⟩]
        (some "first goal".toList) = some "second goal".toList
    ∧ some "second goal".toList ≠ some "first goal".toList := by
  refine ⟨by decide, by decide, by decide⟩

/-- C9 amended: every chat message of a non-internal session carrying at
least one truthy text part sets `userGoal` to that message's text parts
joined with spaces and truncated to 500 characters, regardless of any
previously recorded goal (last write wins, not first). -/
theorem userGoal_lastWriteWins
    (parts : List ChatPart) (g g' : Option Str)
    (h : chatTextParts parts ≠ []) :
    handleChatMessage false parts g =
      some ((List.intercalate " ".toList (chatTextParts parts)).take 500)
    ∧ handleChatMessage false parts g = handleChatMessage false parts g' := by
  have h' : (chatTextParts parts).isEmpty = false := by
    simpa [List.isEmpty_iff] using h
  constructor <;> simp [handleChatMessage, h']

/-- C9 amended witness: a message with two text parts, against two distinct
prior goals. -/
theorem userGoal_lastWriteWins_witness :
    handleChatMessage false
        [⟨"text".toList, some "build".toList⟩, ⟨"text".toList, some "app".toList⟩]
        (some "old".toList) = some "build app".toList
    ∧ handleChatMessage false
        [⟨"text".toList, some "build".toList⟩, ⟨"text".toList, some "app".toList⟩]
        (some "old".toList) =
      handleChatMessage false
        [⟨"text".toList, some "build".toList⟩, ⟨"text".toList, some "app".toList⟩]
        none := by
  have := userGoal_lastWriteWins
    [⟨"text".toList, some "build".toList⟩, ⟨"text".toList, some "app".toList⟩]
    (some "old".toList) none (by decide)
  exact ⟨by rw [this.1]; decide, this.2⟩

/-! ## C8: retry loop -/

/-- C8: when every attempt fails, `callWithRetry` makes exactly 3 attempts,
sleeps 250ms then 500ms between them, and propagates the most recent
(third) error; when attempt `k` is the first to succeed, its decision is
returned after exactly `k + 1` attempts. -/
theorem callWithRetry_spec
    (oracle : Nat → Except Str Decision) (e : Nat → Str) (d : Decision) :
    ((∀ i, i ≤ 2 → oracle i = .error (e i)) →
      callWithRetry oracle = ⟨.error (e 2), 3, [250, 500]⟩)
    ∧ (∀ k, k ≤ 2 → (∀ j, j < k → oracle j = .error (e j)) → oracle k = .ok d →
        (callWithRetry oracle).result = .ok d
        ∧ (callWithRetry oracle).attemptsMade = k + 1
        ∧ (callWithRetry oracle).sleeps = (List.range k).map backoffDelay) := by
  constructor
  · intro h
    have h0 := h 0 (by omega)
    have h1 := h 1 (by omega)
    have h2 := h 2 (by omega)
    simp [callWithRetry, callWithRetryFrom, h0, h1, h2, backoffDelay]
  · intro k hk hfail hok
    interval_cases k
    · simp [callWithRetry, callWithRetryFrom, hok]
    · have h0 := hfail 0 (by omega)
      simp [callWithRetry, callWithRetryFrom, h0, hok, backoffDelay,
        List.range_succ]
    · have h0 := hfail 0 (by omega)
      have h1 := hfail 1 (by omega)
      simp [callWithRetry, callWithRetryFrom, h0, h1, hok, backoffDelay,
        List.range_succ]

/-- C8 witness: an always-failing oracle reaching the full
3-attempt/250ms/500ms trace, and an oracle succeeding on the second attempt
returning after exactly 2 attempts. -/
theorem callWithRetry_spec_witness :
    callWithRetry (fun _ => .error "boom".toList) =
      ⟨.error "boom".toList, 3, [250, 500]⟩
    ∧ (callWithRetry (fun i => if i = 0 then .error "x".toList
        else .ok ⟨.OK, "fine".toList, none⟩)).result =
        .ok ⟨.OK, "fine".toList, none⟩
    ∧ (callWithRetry (fun i => if i = 0 then .error "x".toList
        else .ok ⟨.OK, "fine".toList, none⟩)).attemptsMade = 2 := by
  refine ⟨(callWithRetry_spec (fun _ => .error "boom".toList)
      (fun _ => "boom".toList) ⟨.OK, [], none⟩).1 (fun i _ => rfl), ?_, ?_⟩
  · exact ((callWithRetry_spec _ (fun _ => "x".toList) ⟨.OK, "fine".toList, none⟩).2
      1 (by omega) (fun j hj => by interval_cases j; rfl) rfl).1
  · exact ((callWithRetry_spec _ (fun _ => "x".toList) ⟨.OK, "fine".toList, none⟩).2
      1 (by omega) (fun j hj => by interval_cases j; rfl) rfl).2.1

/-! ## C5: truncation -/

/-- C5: for a configured `maxOutputChars = N` and a tool result longer than
`N`, the truncation step replaces the output with exactly its first `N`
characters followed by the fixed truncation marker; the handler reports the
result modified and writes the mutated content back (so with the other
sanitizer stages off, the written-back output is exactly the truncation). -/
theorem sanitizer_truncation
    (cfg : SanitizerConfig) (out : Str) (deep : Except Str Decision)
    (hen : cfg.enabled = true)
    (hlen : cfg.maxOutputChars < out.length) :
    truncateStep cfg.maxOutputChars out =
      (out.take cfg.maxOutputChars ++ truncationMarker cfg.maxOutputChars, true)
    ∧ (resultSanitizer cfg false deep out).modified = true
    ∧ (cfg.redactSecrets = false →
        (resultSanitizer cfg false deep out).output =
          out.take cfg.maxOutputChars ++ truncationMarker cfg.maxOutputChars) := by
  have ht : truncateStep cfg.maxOutputChars out =
      (out.take cfg.maxOutputChars ++ truncationMarker cfg.maxOutputChars, true) := by
    simp [truncateStep, hlen]
  refine ⟨ht, ?_, ?_⟩
  · simp [resultSanitizer, hen, ht]
  · intro hr
    simp [resultSanitizer, hen, ht, hr]

/-- C5 witness: `maxOutputChars = 5` on an 8-character output. -/
theorem sanitizer_truncation_witness :
    truncateStep 5 "12345678".toList =
      ("12345".toList ++ truncationMarker 5, true)
    ∧ (resultSanitizer ⟨true, 5, false, false⟩ false
        (.error "down".toList) "12345678".toList).modified = true
    ∧ (resultSanitizer ⟨true, 5, false, false⟩ false
        (.error "down".toList) "12345678".toList).output =
      "12345".toList ++ truncationMarker 5 := by
  have h := sanitizer_truncation ⟨true, 5, false, false⟩ "12345678".toList
    (.error "down".toList) rfl (by decide)
  exact ⟨by rw [h.1]; decide, h.2.1, h.2.2 rfl⟩

/-! ## C10: falsy REDACT replacement leaves output unchanged -/

/-- C10: response parsing maps an absent or empty-string `replacement`
field to `none`, and the deep-analysis step leaves the content unchanged
whenever the decision's replacement is `none` or empty — so a `REDACT`
decision without a usable replacement never alters the tool output. -/
theorem redact_falsy_replacement_noop :
    (∀ raw parsed,
      jsonParse ((jsonExtract raw).getD raw) = some parsed →
      (getField parsed "replacement".toList = none
        ∨ getField parsed "replacement".toList = some (.str [])) →
      (parseResponse raw).replacement = none)
    ∧ (∀ (d : Decision) (content : Str),
      (d.replacement = none ∨ d.replacement = some []) →
      deepAnalysisStep d content = (content, false)) := by
  constructor
  · intro raw parsed h hrepl
    have hfalsy : jsTruthy (getField parsed "replacement".toList) = false := by
      rcases hrepl with h' | h' <;> rw [h'] <;> rfl
    unfold parseResponse
    simp only [h]
    split
    · rfl
    · rfl
    · rename_i p heq hne
      split
      · rfl
      · injection hne with hne'
        subst hne'
        simp only [Decision.replacement]
        rw [if_neg]
        simpa using hfalsy
  · intro d content h
    rcases h with h' | h' <;>
      rcases hs : d.status <;> simp [deepAnalysisStep, hs, h']

/-- C10 witness: a reply whose `replacement` is the empty string parses to a
decision without replacement, and a `REDACT` decision without replacement
leaves concrete content untouched. -/
theorem redact_falsy_replacement_noop_witness :
    (parseResponse "\x7b\"status\":\"REDACT\",\"replacement\":\"\"\x7d".toList).replacement = none
    ∧ deepAnalysisStep ⟨.REDACT, "why".toList, none⟩ "content".toList =
        ("content".toList, false) := by
  constructor
  · exact redact_falsy_replacement_noop.1
      "\x7b\"status\":\"REDACT\",\"replacement\":\"\"\x7d".toList
      (.obj [("status".toList, .str "REDACT".toList),
             ("replacement".toList, .str [])])
      (by rfl) (Or.inr rfl)
  · exact redact_falsy_replacement_noop.2 ⟨.REDACT, "why".toList, none⟩
      "content".toList (Or.inl rfl)

/-! ## C3: watchdog supervisor-failure path -/

/-- C3: when the supervisor check fails with `failOpen = false`, the session
enters the terminal aborting state and the handler injects a failure
message, notifies and requests a host abort — the same
inject/notify/abort effect sequence as an `ABORT` verdict (second
conjunct); with `failOpen = true` the state keeps buffering (aborting flag
and token buffer untouched) and the warning toast fires iff none fired for
this session within the last 30 seconds. -/
theorem watchdog_supervisor_failure_path
    (now : Int) (st : SessionState) (e r : Str) :
    performSupervisorCheck false now st (.error e) =
      ({ st with aborting := true },
       [.injectMessage "Supervisor unavailable (fail-closed) - aborting session".toList,
        .toast "Supervisor unavailable - aborting session (fail-closed)".toList,
        .abortRequest])
    ∧ performSupervisorCheck false now st (.ok ⟨.ABORT, r, none⟩) =
      ({ st with aborting := true },
       [.injectMessage ("Session aborted: ".toList ++ r),
        .toast ("Aborted: ".toList ++ r),
        .abortRequest])
    ∧ ((performSupervisorCheck true now st (.error e)).1.aborting = st.aborting
       ∧ (performSupervisorCheck true now st (.error e)).1.tokenBuffer = st.tokenBuffer
       ∧ ((performSupervisorCheck true now st (.error e)).2 =
            [.toast "Supervisor unavailable - watchdog skipped (fail-open)".toList]
          ↔ 30000 ≤ now - st.lastSupervisorFailureToastAt.getD 0)
       ∧ ((performSupervisorCheck true now st (.error e)).2 = []
          ↔ now - st.lastSupervisorFailureToastAt.getD 0 < 30000)) := by
  refine ⟨rfl, rfl, ?_, ?_, ?_, ?_⟩
  · by_cases h : now - st.lastSupervisorFailureToastAt.getD 0 < 30000 <;>
      simp [performSupervisorCheck, shouldShowFailureToast, h]
  · by_cases h : now - st.lastSupervisorFailureToastAt.getD 0 < 30000 <;>
      simp [performSupervisorCheck, shouldShowFailureToast, h]
  · by_cases h : now - st.lastSupervisorFailureToastAt.getD 0 < 30000 <;>
      simp [performSupervisorCheck, shouldShowFailureToast, h] <;> omega
  · by_cases h : now - st.lastSupervisorFailureToastAt.getD 0 < 30000 <;>
      simp [performSupervisorCheck, shouldShowFailureToast, h] <;> omega

/-! ## C7: buffer bound after a check-triggering append -/

/-- The eviction loop run with `remaining` equal to the buffer's total
length brings the total under the limit. -/
theorem evictLoop_total_le (maxB : Nat) :
    ∀ buf : List Str, bufferTotal (evictLoop maxB (bufferTotal buf) buf).2 ≤ maxB := by
  have general : ∀ (buf : List Str) (r : Nat), r = bufferTotal buf →
      bufferTotal (evictLoop maxB r buf).2 ≤ maxB := by
    intro buf
    induction buf with
    | nil => intro r hr; simp [evictLoop, bufferTotal]
    | cons f rest ih =>
      intro r hr
      subst hr
      by_cases h : maxB < bufferTotal (f :: rest)
      · rw [evictLoop, if_pos h]
        apply ih
        simp [bufferTotal]
      · rw [evictLoop, if_neg h]
        simpa using Nat.le_of_not_lt h
  exact fun buf => general buf _ rfl

/-- The eviction loop only drops fragments from the front: the surviving
buffer is a suffix of the input (FIFO eviction). -/
theorem evictLoop_suffix (maxB : Nat) :
    ∀ (buf : List Str) (r : Nat), List.IsSuffix (evictLoop maxB r buf).2 buf := by
  intro buf
  induction buf with
  | nil => intro r; simp [evictLoop]
  | cons f rest ih =>
    intro r
    by_cases h : maxB < r
    · rw [evictLoop, if_pos h]
      exact (ih _).trans (List.suffix_cons f rest)
    · rw [evictLoop, if_neg h]

/-- C7: immediately after an appended delta triggers a check (buffered
length minus the last-check count at least `checkIntervalTokens`), the
total buffered length is at most `maxBufferTokens`, and the surviving
buffer is a suffix of the appended buffer (oldest fragments evicted
first). -/
theorem watchdog_buffer_bound
    (cfg : WatchdogConfig) (st : SessionState) (ev : WatchdogEvent)
    (delta : Str) (pendingCheck : Bool)
    (hen : cfg.enabled = true)
    (htype : ev.eventType = "message.part.updated".toList)
    (hpart : ev.partType = some "text".toList)
    (hdelta : ev.delta = some delta)
    (hne : delta ≠ [])
    (habort : st.aborting = false)
    (hmark : containsMarker delta = false)
    (htrig : (cfg.checkIntervalTokens : Int) ≤
      (bufferTotal (st.tokenBuffer ++ [delta]) : Int) - (st.lastCheckTokenCount : Int)) :
    bufferTotal (((handleEvent cfg false pendingCheck ev (some st)).1.getD
        freshSessionState).tokenBuffer) ≤ cfg.maxBufferTokens
    ∧ List.IsSuffix (((handleEvent cfg false pendingCheck ev (some st)).1.getD
        freshSessionState).tokenBuffer) (st.tokenBuffer ++ [delta]) := by
  have hne' : delta.isEmpty = false := by
    cases delta with
    | nil => exact absurd rfl hne
    | cons c t => rfl
  by_cases hbig : cfg.maxBufferTokens < bufferTotal (st.tokenBuffer ++ [delta])
  · constructor
    · simp [handleEvent, hen, htype, hpart, hdelta, hne', habort, hmark, htrig, hbig]
      exact evictLoop_total_le cfg.maxBufferTokens (st.tokenBuffer ++ [delta])
    · simp [handleEvent, hen, htype, hpart, hdelta, hne', habort, hmark, htrig, hbig]
      exact evictLoop_suffix cfg.maxBufferTokens (st.tokenBuffer ++ [delta]) _
  · constructor
    · simp [handleEvent, hen, htype, hpart, hdelta, hne', habort, hmark, htrig, hbig]
      exact Nat.le_of_not_lt hbig
    · simp [handleEvent, hen, htype, hpart, hdelta, hne', habort, hmark, htrig, hbig]

/-- C7 witness: interval 5, cap 8, two 4-character fragments buffered, a
3-character delta arrives: the check triggers (11 - 0 ≥ 5) and the buffer is
evicted back under the cap, dropping from the front. -/
theorem watchdog_buffer_bound_witness :
    bufferTotal (((handleEvent ⟨true, 5, 8⟩ false false
        ⟨"message.part.updated".toList, some "text".toList, "s1".toList,
          some "xyz".toList⟩
        (some { tokenBuffer := ["abcd".toList, "efgh".toList],
                lastCheckTokenCount := 0, aborting := false })).1.getD
        freshSessionState).tokenBuffer) ≤ 8
    ∧ List.IsSuffix (((handleEvent ⟨true, 5, 8⟩ false false
        ⟨"message.part.updated".toList, some "text".toList, "s1".toList,
          some "xyz".toList⟩
        (some { tokenBuffer := ["abcd".toList, "efgh".toList],
                lastCheckTokenCount := 0, aborting := false })).1.getD
        freshSessionState).tokenBuffer)
      (["abcd".toList, "efgh".toList] ++ ["xyz".toList]) :=
  watchdog_buffer_bound ⟨true, 5, 8⟩
    { tokenBuffer := ["abcd".toList, "efgh".toList],
      lastCheckTokenCount := 0, aborting := false }
    ⟨"message.part.updated".toList, some "text".toList, "s1".toList,
      some "xyz".toList⟩
    "xyz".toList false rfl rfl rfl rfl (by decide) rfl (by decide) (by decide)

/-! ## C4: at most one create-session call per main session -/

/-- Marking caller `i` done raises the done count by one. -/
theorem doneCount_update_done {n : Nat} (f : Fin n → CallerPhase) (i : Fin n)
    (h : f i ≠ .done) :
    (Finset.univ.filter
      (fun j => Function.update f i CallerPhase.done j = CallerPhase.done)).card
      = (Finset.univ.filter (fun j => f j = CallerPhase.done)).card + 1 := by
  have hset : (Finset.univ.filter
      (fun j => Function.update f i CallerPhase.done j = CallerPhase.done))
      = insert i (Finset.univ.filter (fun j => f j = CallerPhase.done)) := by
    ext j
    by_cases hj : j = i
    · subst hj; simp
    · simp [Function.update_noteq hj, hj]
  rw [hset, Finset.card_insert_of_not_mem (by simp [h])]

/-- Moving caller `i` to a non-done phase keeps the done count. -/
theorem doneCount_update_other {n : Nat} (f : Fin n → CallerPhase) (i : Fin n)
    (ph : CallerPhase) (hph : ph ≠ .done) (hi : f i ≠ .done) :
    (Finset.univ.filter
      (fun j => Function.update f i ph j = CallerPhase.done)).card
      = (Finset.univ.filter (fun j => f j = CallerPhase.done)).card := by
  congr 1
  ext j
  by_cases hj : j = i
  · subst hj; simp [hph, hi]
  · simp [Function.update_noteq hj]

/-- The invariant is preserved by every step. -/
theorem ensureInv_step {n : Nat} {s s' : EnsureState n}
    (hinv : EnsureInv s) (hstep : EnsureStep s s') : EnsureInv s' := by
  obtain ⟨hA, hB, hC, hD, hE⟩ := hinv
  cases hstep with
  | hitMapping i s hph hmap =>
    refine ⟨hA, hB, hC, ?_, ?_⟩
    · intro j hj
      exact hC hmap
    · simp only [doneCount] at hE ⊢
      dsimp only
      rw [doneCount_update_done _ _ (by rw [hph]; exact fun hc => by cases hc)]
      omega
  | hitPending i s hph hmap hpend =>
    refine ⟨hA, hB, hC, ?_, ?_⟩
    · intro j hj
      dsimp only at hj ⊢
      by_cases hij : j = i
      · subst hij; rw [Function.update_same] at hj; cases hj
      · rw [Function.update_noteq hij] at hj; exact hD j hj
    · simp only [doneCount] at hE ⊢
      dsimp only
      rw [doneCount_update_other _ _ _ (fun hc => by cases hc)
        (by rw [hph]; exact fun hc => by cases hc)]
      exact hE
  | beginCreate i s hph hmap hpend =>
    have hres : s.resolved = false := by
      cases hres : s.resolved with
      | false => rfl
      | true => rw [hB hres] at hmap; cases hmap
    refine ⟨?_, hB, hC, ?_, ?_⟩
    · simp only [hpend, hres, Bool.or_false] at hA
      simp [hA]
    · intro j hj
      dsimp only at hj ⊢
      by_cases hij : j = i
      · subst hij; rw [Function.update_same] at hj; cases hj
      · rw [Function.update_noteq hij] at hj; exact hD j hj
    · simp only [doneCount] at hE ⊢
      dsimp only
      rw [doneCount_update_other _ _ _ (fun hc => by cases hc)
        (by rw [hph]; exact fun hc => by cases hc)]
      exact hE
  | resolveCreate s hpend hres =>
    refine ⟨?_, fun _ => rfl, fun _ => rfl, fun j hj => rfl, hE⟩
    · simp only [hpend, Bool.true_or] at hA ⊢
      exact hA
  | ownerReturn i s hph hres =>
    refine ⟨?_, hB, hC, fun j hj => hres, ?_⟩
    · simp only [hres, Bool.or_true] at hA ⊢
      exact hA
    · simp only [doneCount] at hE ⊢
      dsimp only
      rw [doneCount_update_done _ _ (by rw [hph]; exact fun hc => by cases hc)]
      omega
  | waiterReturn i s hph hres =>
    refine ⟨hA, hB, hC, fun j hj => hres, ?_⟩
    · simp only [doneCount] at hE ⊢
      dsimp only
      rw [doneCount_update_done _ _ (by rw [hph]; exact fun hc => by cases hc)]
      omega

/-- Every reachable state satisfies the invariant. -/
theorem ensureInv_reach {n : Nat} {s : EnsureState n} (h : EnsureReach s) :
    EnsureInv s := by
  induction h with
  | init =>
    refine ⟨rfl, ?_, ?_, ?_, ?_⟩ <;>
      simp [EnsureState.init, doneCount, EnsureInv]
  | step _ hstep ih => exact ensureInv_step ih hstep

/-- C4: in every reachable state of `n` concurrent first-queries against a
fresh main session, at most one `session.create` call has been issued;
once the pending entry is gone after a create was issued, the mapping is
already installed (install-before-remove); when every caller has completed
(the success scenario), exactly one create call and `n` prompt calls were
issued; and any step that removes the pending entry happens from a state
where the mapping is already installed. -/
theorem ensureSession_dedup {n : Nat} (s : EnsureState n) (h : EnsureReach s) :
    s.createCalls ≤ 1
    ∧ (s.pending = false → 1 ≤ s.createCalls → s.mapping = true)
    ∧ ((∀ i, s.phase i = .done) → s.promptCalls = n ∧ (0 < n → s.createCalls = 1))
    ∧ (∀ s' : EnsureState n, EnsureStep s s' → s.pending = true →
        s'.pending = false → s.mapping = true) := by
  obtain ⟨hA, hB, hC, hD, hE⟩ := ensureInv_reach h
  refine ⟨?_, ?_, ?_, ?_⟩
  · rw [hA]; split <;> omega
  · intro hpend hcalls
    rw [hpend] at hA
    cases hres : s.resolved with
    | true => exact hB hres
    | false => rw [hres] at hA; simp at hA; omega
  · intro hall
    have hcount : doneCount s = n := by
      have : (Finset.univ.filter (fun i => s.phase i = CallerPhase.done))
          = Finset.univ := by
        ext i; simp [hall i]
      simp [doneCount, this]
    constructor
    · rw [hE, hcount]
    · intro hn
      have hres : s.resolved = true := hD ⟨0, hn⟩ (hall ⟨0, hn⟩)
      rw [hA, hres]
      simp
  · intro s' hstep hpend hpend'
    cases hstep with
    | hitMapping i s hph hmap => exact hmap
    | hitPending i s hph hmap hp => rw [hpend] at hpend'; cases hpend'
    | beginCreate i s hph hmap hp => rw [hp] at hpend; cases hpend
    | resolveCreate s hp hres => rw [hpend] at hpend'; cases hpend'
    | ownerReturn i s hph hres => exact hB hres
    | waiterReturn i s hph hres => rw [hpend] at hpend'; cases hpend'

/-- C4 witness: two concurrent callers on a fresh session; the second finds
the pending creation and awaits it; after resolution both complete: one
create call, two prompt calls. -/
theorem ensureSession_dedup_witness :
    ∃ s : EnsureState 2, EnsureReach s ∧ s.createCalls ≤ 1
      ∧ s.createCalls = 1 ∧ s.promptCalls = 2 := by
  have h0 : EnsureReach (EnsureState.init 2) := .init 2
  have h1 := EnsureReach.step h0 (EnsureStep.beginCreate 0 _ rfl rfl rfl)
  have h2 := EnsureReach.step h1 (EnsureStep.hitPending 1 _ rfl rfl rfl)
  have h3 := EnsureReach.step h2 (EnsureStep.resolveCreate _ rfl rfl)
  have h4 := EnsureReach.step h3 (EnsureStep.ownerReturn 0 _ rfl rfl)
  have h5 := EnsureReach.step h4 (EnsureStep.waiterReturn 1 _ rfl rfl)
  have hmain := ensureSession_dedup _ h5
  have hall := hmain.2.2.1 (fun i => by fin_cases i <;> rfl)
  exact ⟨_, h5, hmain.1, hall.2 (by omega), hall.1⟩

/-! ## C1: response parsing -/

/-- `breakAt` splits its input. -/
theorem breakAt_append_eq (p : Char → Bool) :
    ∀ l : Str, (breakAt p l).1 ++ (breakAt p l).2 = l := by
  intro l
  induction l with
  | nil => rfl
  | cons c rest ih =>
    by_cases h : p c <;> simp [breakAt, h, ih]

/-- No character of the first `breakAt` component satisfies the predicate. -/
theorem breakAt_fst_not (p : Char → Bool) :
    ∀ l : Str, ∀ c ∈ (breakAt p l).1, p c = false := by
  intro l
  induction l with
  | nil => intro c hc; cases hc
  | cons c rest ih =>
    by_cases h : p c
    · simp [breakAt, h]
    · intro d hd
      rw [breakAt] at hd
      simp only [h, if_false] at hd
      rcases List.mem_cons.mp hd with h' | h'
      · subst h'; exact Bool.eq_false_iff.mpr h
      · exact ih d h'

/-- The second `breakAt` component is empty or starts with a character
satisfying the predicate. -/
theorem breakAt_snd_head (p : Char → Bool) :
    ∀ l : Str, (breakAt p l).2 = [] ∨
      ∃ c t, (breakAt p l).2 = c :: t ∧ p c = true := by
  intro l
  induction l with
  | nil => exact Or.inl rfl
  | cons c rest ih =>
    by_cases h : p c
    · exact Or.inr ⟨c, rest, by simp [breakAt, h], h⟩
    · simpa [breakAt, h] using ih

/-- `breakAt` recovers a given split whose prefix avoids the predicate and
whose remainder starts with a character satisfying it. -/
theorem breakAt_of_decomp (p : Char → Bool) :
    ∀ (u : Str) {c : Char} {t : Str}, (∀ d ∈ u, p d = false) → p c = true →
      breakAt p (u ++ c :: t) = (u, c :: t) := by
  intro u
  induction u with
  | nil => intro c t _ hc; simp [breakAt, hc]
  | cons d u' ih =>
    intro c t hu hc
    have hd : p d = false := hu d (List.mem_cons_self d u')
    have ih' := ih (c := c) (t := t) (fun e he => hu e (List.mem_cons_of_mem d he)) hc
    show breakAt p (d :: (u' ++ c :: t)) = (d :: u', c :: t)
    rw [breakAt]
    simp only [hd, Bool.false_eq_true, if_false]
    rw [ih']

/-- Characterization of the greedy regex match: `jsonExtract raw = some s`
exactly when `raw` splits as `u ++ s ++ v` with `s` starting at the first
opening brace (no opening brace in `u`) and ending at the last closing
brace (no closing brace in `v`). -/
theorem jsonExtract_eq_some_iff (raw s : Str) :
    jsonExtract raw = some s ↔
      ∃ u v, raw = u ++ s ++ v ∧ s.head? = some '{' ∧ s.getLast? = some '}'
        ∧ (∀ c ∈ u, c ≠ '{') ∧ (∀ c ∈ v, c ≠ '}') := by
  constructor
  · intro h
    unfold jsonExtract at h
    rcases hsnd : (breakAt (fun c => c == '{') raw).2 with _ | ⟨c, t⟩
    · rw [hsnd] at h; cases h
    · have hc : (c == '{') = true := by
        rcases breakAt_snd_head (fun c => c == '{') raw with he | ⟨c', t', h', hc'⟩
        · rw [he] at hsnd; cases hsnd
        · rw [h'] at hsnd
          injection hsnd with h1 h2
          subst h1
          exact hc'
      rw [hsnd] at h
      dsimp only at h
      rcases hsnd2 : (breakAt (fun c => c == '}') (c :: t).reverse).2 with _ | ⟨c2, t2⟩
      · rw [hsnd2] at h; cases h
      · have hc2 : (c2 == '}') = true := by
          rcases breakAt_snd_head (fun c => c == '}') (c :: t).reverse with
            he | ⟨c', t', h', hc'⟩
          · rw [he] at hsnd2; cases hsnd2
          · rw [h'] at hsnd2
            injection hsnd2 with h1 h2
            subst h1
            exact hc'
        rw [hsnd2] at h
        dsimp only at h
        have hs : s = (c2 :: t2).reverse := by
          injection h with h'
          exact h'.symm
        have hcb : c = '{' := by simpa using hc
        have hc2b : c2 = '}' := by simpa using hc2
        have h1 : (breakAt (fun c => c == '{') raw).1 ++ (c :: t) = raw := by
          rw [← hsnd]; exact breakAt_append_eq _ raw
        have h2 : (breakAt (fun c => c == '}') (c :: t).reverse).1 ++ (c2 :: t2)
            = (c :: t).reverse := by
          rw [← hsnd2]; exact breakAt_append_eq _ _
        have h3 : c :: t =
            (c2 :: t2).reverse ++
              ((breakAt (fun c => c == '}') (c :: t).reverse).1).reverse := by
          have := congrArg List.reverse h2
          simpa using this.symm
        refine ⟨(breakAt (fun c => c == '{') raw).1,
          ((breakAt (fun c => c == '}') (c :: t).reverse).1).reverse,
          ?_, ?_, ?_, ?_, ?_⟩
        · have goal : (breakAt (fun c => c == '{') raw).1 ++ s ++
              ((breakAt (fun c => c == '}') (c :: t).reverse).1).reverse = raw := by
            rw [hs, List.append_assoc, ← h3]
            exact h1
          exact goal.symm
        · rw [hs]
          have hne : (c2 :: t2).reverse ≠ [] := by simp
          rcases List.exists_cons_of_ne_nil hne with ⟨x, xs, hx⟩
          have hxc : x = c := by
            have := congrArg List.head? h3
            rw [hx] at this
            simpa using this.symm
          rw [hx, hxc, hcb]
          rfl
        · rw [hs, List.getLast?_reverse]
          rw [show (c2 :: t2).head? = some c2 from rfl, hc2b]
        · intro d hd
          have := breakAt_fst_not (fun c => c == '{') raw d hd
          simpa using this
        · intro d hd
          rw [List.mem_reverse] at hd
          have := breakAt_fst_not (fun c => c == '}') (c :: t).reverse d hd
          simpa using this
  · rintro ⟨u, v, hraw, hhead, hlast, hu, hv⟩
    rcases List.head?_eq_some_iff.mp hhead with ⟨s₀, hs⟩
    have hu' : ∀ d ∈ u, (fun c => c == '{') d = false := by
      intro d hd; simpa using hu d hd
    have hb1 : breakAt (fun c => c == '{') raw = (u, s ++ v) := by
      have e1 : raw = u ++ '{' :: (s₀ ++ v) := by
        rw [hraw, hs]; simp
      have e2 : s ++ v = '{' :: (s₀ ++ v) := by
        rw [hs]; rfl
      rw [e1, e2]
      exact breakAt_of_decomp _ u hu' (by simp)
    have hsrev : ∃ s₁, s.reverse = '}' :: s₁ := by
      have hh : s.reverse.head? = some '}' := by
        rw [List.head?_reverse]; exact hlast
      exact List.head?_eq_some_iff.mp hh
    rcases hsrev with ⟨s₁, hs₁⟩
    have hv' : ∀ d ∈ v.reverse, (fun c => c == '}') d = false := by
      intro d hd; rw [List.mem_reverse] at hd; simpa using hv d hd
    have hb2 : breakAt (fun c => c == '}') ((s ++ v).reverse)
        = (v.reverse, s.reverse) := by
      have e1 : (s ++ v).reverse = v.reverse ++ '}' :: s₁ := by
        rw [List.reverse_append, hs₁]
      rw [e1, hs₁]
      exact breakAt_of_decomp _ v.reverse hv' (by simp)
    unfold jsonExtract
    rw [hb1]
    dsimp only
    rcases hsv : s ++ v with _ | ⟨x, xs⟩
    · exfalso
      rw [hs] at hsv
      cases hsv
    · dsimp only
      rw [← hsv, hb2, hs₁]
      dsimp only
      rw [← hs₁]
      simp

/-- C1 (amended): `parseResponse` is total and its extraction step takes
the span from the first opening brace through the last closing brace (the
greedy regex), parsing the whole text when no such span exists; on any
JSON-parse failure or unknown uppercased status it returns the safe default
decision (kind OK, parse-error reason); when the uppercased status is one
of the six kinds, that kind is returned. -/
theorem parseResponse_amended (raw : Str) :
    (∀ s, jsonExtract raw = some s ↔
      ∃ u v, raw = u ++ s ++ v ∧ s.head? = some '{' ∧ s.getLast? = some '}'
        ∧ (∀ c ∈ u, c ≠ '{') ∧ (∀ c ∈ v, c ≠ '}'))
    ∧ (jsonParse ((jsonExtract raw).getD raw) = none →
        parseResponse raw = parseErrorDecision)
    ∧ (∀ parsed, jsonParse ((jsonExtract raw).getD raw) = some parsed →
        statusOfString (strUpper (jsStringOpt (getField parsed "status".toList))) = none →
        parseResponse raw = parseErrorDecision)
    ∧ (∀ parsed st, jsonParse ((jsonExtract raw).getD raw) = some parsed →
        statusOfString (strUpper (jsStringOpt (getField parsed "status".toList))) = some st →
        (parseResponse raw).status = st) := by
  refine ⟨fun s => jsonExtract_eq_some_iff raw s, ?_, ?_, ?_⟩
  · intro h
    unfold parseResponse
    simp only [h]
  · intro parsed h hst
    unfold parseResponse
    simp only [h]
    split
    · rfl
    · rfl
    · rename_i p heq hne
      injection hne with hne'
      subst hne'
      rw [hst]
  · intro parsed st h hst
    unfold parseResponse
    simp only [h]
    split
    · rename_i heq
      cases heq
    · rename_i heq
      injection heq with heq'
      subst heq'
      have hnone : statusOfString (strUpper (jsStringOpt (getField Json.null "status".toList)))
          = none := rfl
      rw [hnone] at hst
      cases hst
    · rename_i p heq hne
      injection hne with hne'
      subst hne'
      rw [hst]

/-- C1 witness for the amended theorem: a reply with trailing prose around
a single JSON object parses to its status; a reply with no JSON at all
parses to the default. -/
theorem parseResponse_amended_witness :
    jsonExtract "ok: \x7b\"status\":\"abort\"\x7d!".toList =
      some "\x7b\"status\":\"abort\"\x7d".toList
    ∧ (parseResponse "ok: \x7b\"status\":\"abort\"\x7d!".toList).status = .ABORT
    ∧ parseResponse "no json here".toList = parseErrorDecision := by
  refine ⟨?_, ?_, ?_⟩
  · exact ((parseResponse_amended _).1 _).mpr
      ⟨"ok: ".toList, "!".toList, by decide, by decide, by decide, by decide, by decide⟩
  · exact (parseResponse_amended "ok: \x7b\"status\":\"abort\"\x7d!".toList).2.2.2
      (.obj [("status".toList, .str "abort".toList)]) .ABORT (by rfl) (by rfl)
  · exact (parseResponse_amended "no json here".toList).2.1 (by rfl)

/-- C1 counterexample to the claim as stated: on a reply containing two
JSON objects, first-balanced-object extraction (what the claim describes)
yields the ABORT decision of the first object, while the source's greedy
regex spans both objects, fails to parse, and falls back to the safe
default — the two disagree. -/
theorem parseResponse_greedy_counterexample :
    parseResponse
        "\x7b\"status\":\"abort\"\x7d \x7b\"status\":\"ok\"\x7d".toList =
      parseErrorDecision
    ∧ parseResponseFirstBalanced
        "\x7b\"status\":\"abort\"\x7d \x7b\"status\":\"ok\"\x7d".toList =
      ⟨.ABORT, "No reason provided".toList, none⟩
    ∧ parseResponse
        "\x7b\"status\":\"abort\"\x7d \x7b\"status\":\"ok\"\x7d".toList ≠
      parseResponseFirstBalanced
        "\x7b\"status\":\"abort\"\x7d \x7b\"status\":\"ok\"\x7d".toList := by
  refine ⟨by rfl, by rfl, by decide⟩

/-! ## C6: secret-pattern redaction

### Engine–language correspondence -/

/-- Unfolding of `mrun` at `eps`. -/
theorem mrun_eps (s : Str) (k : Str → Option Str) : mrun .eps s k = k s := rfl

/-- Unfolding of `mrun` at a literal. -/
theorem mrun_lit (l : Str) (ci : Bool) (s : Str) (k : Str → Option Str) :
    mrun (.lit l ci) s k =
      if litEqB l ci (s.take l.length) then k (s.drop l.length) else none := rfl

/-- Unfolding of `mrun` at a single-class character, empty input. -/
theorem mrun_one_nil (p : Char → Bool) (k : Str → Option Str) :
    mrun (.one p) [] k = none := rfl

/-- Unfolding of `mrun` at a single-class character, nonempty input. -/
theorem mrun_one_cons (p : Char → Bool) (c : Char) (rest : Str)
    (k : Str → Option Str) :
    mrun (.one p) (c :: rest) k = if p c then k rest else none := rfl

/-- Unfolding of `mrun` at a class repetition. -/
theorem mrun_cls (p : Char → Bool) (lo : Nat) (s : Str) (k : Str → Option Str) :
    mrun (.cls p lo) s k =
      if lo ≤ runLen p s then clsTryFrom k s lo (runLen p s) else none := rfl

/-- Unfolding of `mrun` at an optional class character, empty input. -/
theorem mrun_opt1_nil (p : Char → Bool) (k : Str → Option Str) :
    mrun (.opt1 p) [] k = k [] := rfl

/-- Unfolding of `mrun` at an optional class character, nonempty input. -/
theorem mrun_opt1_cons (p : Char → Bool) (c : Char) (rest : Str)
    (k : Str → Option Str) :
    mrun (.opt1 p) (c :: rest) k =
      if p c then
        match k rest with
        | some o => some o
        | none => k (c :: rest)
      else k (c :: rest) := rfl

/-- Unfolding of `mrun` at a concatenation. -/
theorem mrun_seq (a b : Mre) (s : Str) (k : Str → Option Str) :
    mrun (.seq a b) s k = mrun a s (fun s' => mrun b s' k) := rfl

/-- Unfolding of `mrun` at an alternation. -/
theorem mrun_alt (a b : Mre) (s : Str) (k : Str → Option Str) :
    mrun (.alt a b) s k =
      match mrun a s k with
      | some o => some o
      | none => mrun b s k := rfl

/-- A class run never exceeds the input length. -/
theorem runLen_le (p : Char → Bool) : ∀ s : Str, runLen p s ≤ s.length := by
  intro s
  induction s with
  | nil => simp [runLen]
  | cons c rest ih =>
    by_cases h : p c <;> simp [runLen, h] <;> omega

/-- Characters within the class run satisfy the class. -/
theorem runLen_take (p : Char → Bool) :
    ∀ (s : Str) (j : Nat), j ≤ runLen p s → ∀ c ∈ s.take j, p c = true := by
  intro s
  induction s with
  | nil => intro j _ c hc; simp at hc
  | cons d rest ih =>
    intro j hj c hc
    by_cases hd : p d
    · rw [runLen, if_pos hd] at hj
      cases j with
      | zero => simp at hc
      | succ j' =>
        rw [List.take_succ_cons] at hc
        rcases List.mem_cons.mp hc with h' | h'
        · subst h'; exact hd
        · exact ih j' (by omega) c h'
    · rw [runLen, if_neg hd] at hj
      have : j = 0 := by omega
      subst this
      simp at hc

/-- A class-only prefix is no longer than the class run. -/
theorem runLen_ge (p : Char → Bool) :
    ∀ (u v : Str), (∀ c ∈ u, p c = true) → u.length ≤ runLen p (u ++ v) := by
  intro u
  induction u with
  | nil => intro v _; simp
  | cons c rest ih =>
    intro v hu
    have hc : p c = true := hu c (List.mem_cons_self c rest)
    have ih' := ih v (fun d hd => hu d (List.mem_cons_of_mem c hd))
    have hstep : runLen p (c :: (rest ++ v)) = runLen p (rest ++ v) + 1 := by
      rw [runLen, if_pos hc]
    simp only [List.cons_append, List.length_cons, hstep]
    omega

/-- Soundness of the greedy class backtracking. -/
theorem clsTryFrom_sound (k : Str → Option Str) (s : Str) (lo : Nat) :
    ∀ (i : Nat) (o : Str), clsTryFrom k s lo i = some o →
      ∃ j, lo ≤ j ∧ j ≤ i ∧ k (s.drop j) = some o := by
  intro i
  induction i with
  | zero =>
    intro o h
    rw [clsTryFrom] at h
    split at h
    · exact ⟨0, by omega, by omega, by simpa using h⟩
    · cases h
  | succ i ih =>
    intro o h
    rw [clsTryFrom] at h
    split at h
    · rename_i hlo
      cases hk : k (s.drop (i + 1)) with
      | some o' =>
        rw [hk] at h
        injection h with h'
        exact ⟨i + 1, hlo, le_refl _, by rw [hk, h']⟩
      | none =>
        rw [hk] at h
        rcases ih o h with ⟨j, hj1, hj2, hj3⟩
        exact ⟨j, hj1, by omega, hj3⟩
    · cases h

/-- Completeness of the greedy class backtracking. -/
theorem clsTryFrom_complete (k : Str → Option Str) (s : Str) (lo : Nat) :
    ∀ (i j : Nat), lo ≤ j → j ≤ i → (k (s.drop j)).isSome →
      (clsTryFrom k s lo i).isSome := by
  intro i
  induction i with
  | zero =>
    intro j hlo hj hk
    have : j = 0 := by omega
    subst this
    rw [clsTryFrom, if_pos (by omega)]
    simpa using hk
  | succ i ih =>
    intro j hlo hj hk
    rw [clsTryFrom, if_pos (by omega)]
    cases hk1 : k (s.drop (i + 1)) with
    | some o => simp
    | none =>
      by_cases hji : j = i + 1
      · subst hji
        rw [hk1] at hk
        simp at hk
      · exact ih j hlo (by omega) hk

/-- Soundness of the matcher: a successful run decomposes the input into a
word of the language and a remainder passed to the continuation. -/
theorem mrun_sound :
    ∀ (r : Mre) (s : Str) (k : Str → Option Str) (o : Str),
      mrun r s k = some o → ∃ u v, s = u ++ v ∧ inL r u ∧ k v = some o := by
  intro r
  induction r with
  | eps =>
    intro s k o h
    exact ⟨[], s, rfl, rfl, h⟩
  | lit l ci =>
    intro s k o h
    rw [mrun_lit] at h
    split at h
    · rename_i hg
      exact ⟨s.take l.length, s.drop l.length, (List.take_append_drop _ s).symm, hg, h⟩
    · cases h
  | one p =>
    intro s k o h
    cases s with
    | nil => rw [mrun_one_nil] at h; cases h
    | cons c rest =>
      rw [mrun_one_cons] at h
      split at h
      · rename_i hp
        exact ⟨[c], rest, rfl, ⟨c, rfl, hp⟩, h⟩
      · cases h
  | cls p lo =>
    intro s k o h
    rw [mrun_cls] at h
    split at h
    · rename_i hlo
      rcases clsTryFrom_sound k s lo _ o h with ⟨j, hj1, hj2, hj3⟩
      have hjlen : j ≤ s.length := le_trans hj2 (runLen_le p s)
      refine ⟨s.take j, s.drop j, (List.take_append_drop _ s).symm, ?_, hj3⟩
      exact ⟨by simp [List.length_take]; omega, runLen_take p s j hj2⟩
    · cases h
  | opt1 p =>
    intro s k o h
    cases s with
    | nil =>
      rw [mrun_opt1_nil] at h
      exact ⟨[], [], rfl, Or.inl rfl, h⟩
    | cons c rest =>
      rw [mrun_opt1_cons] at h
      split at h
      · rename_i hp
        cases hk : k rest with
        | some o' =>
          rw [hk] at h
          injection h with h'
          exact ⟨[c], rest, rfl, Or.inr ⟨c, rfl, hp⟩, by rw [hk, h']⟩
        | none =>
          rw [hk] at h
          exact ⟨[], c :: rest, rfl, Or.inl rfl, h⟩
      · exact ⟨[], c :: rest, rfl, Or.inl rfl, h⟩
  | seq a b iha ihb =>
    intro s k o h
    rw [mrun_seq] at h
    rcases iha s _ o h with ⟨u1, v1, hs1, hin1, h1⟩
    rcases ihb v1 k o h1 with ⟨u2, v2, hs2, hin2, h2⟩
    exact ⟨u1 ++ u2, v2, by rw [hs1, hs2, List.append_assoc],
      ⟨u1, u2, rfl, hin1, hin2⟩, h2⟩
  | alt a b iha ihb =>
    intro s k o h
    rw [mrun_alt] at h
    cases ha : mrun a s k with
    | some o' =>
      rw [ha] at h
      injection h with h'
      rcases iha s k o' ha with ⟨u, v, hs, hin, hk⟩
      exact ⟨u, v, hs, Or.inl hin, by rw [hk, h']⟩
    | none =>
      rw [ha] at h
      rcases ihb s k o h with ⟨u, v, hs, hin, hk⟩
      exact ⟨u, v, hs, Or.inr hin, hk⟩

/-- Completeness of the matcher: if a prefix of the input is a word of the
language and the continuation succeeds on the remainder, the run
succeeds. -/
theorem mrun_complete :
    ∀ (r : Mre) (u v : Str) (k : Str → Option Str),
      inL r u → (k v).isSome → (mrun r (u ++ v) k).isSome := by
  intro r
  induction r with
  | eps =>
    intro u v k hin hk
    cases hin
    simpa [mrun_eps] using hk
  | lit l ci =>
    intro u v k hin hk
    have hin' : litEqB l ci u = true := hin
    have hlen : u.length = l.length := by
      unfold litEqB at hin'
      simp only [Bool.and_eq_true, beq_iff_eq] at hin'
      exact hin'.1
    have htake : (u ++ v).take l.length = u := by
      rw [← hlen]
      exact List.take_left u v
    have hdrop : (u ++ v).drop l.length = v := by
      rw [← hlen]
      exact List.drop_left u v
    rw [mrun_lit, htake, hdrop, if_pos hin']
    exact hk
  | one p =>
    intro u v k hin hk
    rcases hin with ⟨c, hu, hp⟩
    subst hu
    rw [List.cons_append, mrun_one_cons, if_pos hp]
    exact hk
  | cls p lo =>
    intro u v k hin hk
    rcases hin with ⟨hlo, hall⟩
    rw [mrun_cls]
    have hge := runLen_ge p u v hall
    rw [if_pos (by omega)]
    have hdrop : (u ++ v).drop u.length = v := List.drop_left u v
    exact clsTryFrom_complete k (u ++ v) lo _ u.length (by omega) hge
      (by rw [hdrop]; exact hk)
  | opt1 p =>
    intro u v k hin hk
    rcases hin with hu | ⟨c, hu, hp⟩
    · subst hu
      rw [List.nil_append]
      cases v with
      | nil =>
        rw [mrun_opt1_nil]
        exact hk
      | cons c rest =>
        rw [mrun_opt1_cons]
        split
        · cases hk1 : k rest with
          | some o => simp
          | none => simpa [hk1] using hk
        · exact hk
    · subst hu
      rw [List.cons_append, mrun_opt1_cons, if_pos hp]
      cases hk1 : k v with
      | some o => simp [hk1]
      | none =>
        rw [hk1] at hk
        simp at hk
  | seq a b iha ihb =>
    intro u v k hin hk
    rcases hin with ⟨u1, u2, hu, hin1, hin2⟩
    subst hu
    rw [mrun_seq]
    have hb := ihb u2 v k hin2 hk
    have := iha u1 (u2 ++ v) (fun s' => mrun b s' k) hin1 hb
    rw [List.append_assoc]
    exact this
  | alt a b iha ihb =>
    intro u v k hin hk
    rw [mrun_alt]
    rcases hin with hin | hin
    · have := iha u v k hin hk
      rcases Option.isSome_iff_exists.mp this with ⟨o, ho⟩
      rw [ho]
      simp
    · cases ha : mrun a (u ++ v) k with
      | some o => simp
      | none => exact ihb u v k hin hk

/-- `mrunHead` succeeds exactly when a match starts at position 0. -/
theorem mrunHead_isSome_iff (r : Mre) (s : Str) :
    (mrunHead r s).isSome ↔ StartsMatch r s := by
  constructor
  · intro h
    rcases Option.isSome_iff_exists.mp h with ⟨n, hn⟩
    unfold mrunHead at hn
    rcases Option.map_eq_some'.mp hn with ⟨rest, hrest, _⟩
    rcases mrun_sound r s _ rest hrest with ⟨u, v, hs, hin, _⟩
    exact ⟨u, v, hs, hin⟩
  · rintro ⟨u, v, hs, hin⟩
    unfold mrunHead
    rw [hs]
    have := mrun_complete r u v (fun rest => some rest) hin (by simp)
    rcases Option.isSome_iff_exists.mp this with ⟨o, ho⟩
    rw [ho]
    simp

/-- Decomposition produced by a successful `mrunHead`. -/
theorem mrunHead_some_spec (r : Mre) (s : Str) (n : Nat)
    (h : mrunHead r s = some n) :
    ∃ u v, s = u ++ v ∧ inL r u ∧ u.length = n := by
  unfold mrunHead at h
  rcases Option.map_eq_some'.mp h with ⟨rest, hrest, hn⟩
  rcases mrun_sound r s _ rest hrest with ⟨u, v, hs, hin, hv⟩
  injection hv with hv'
  subst hv'
  refine ⟨u, v, hs, hin, ?_⟩
  rw [← hn, hs]
  simp

/-- `findMatch` fails exactly when no substring matches. -/
theorem findMatch_none_iff (r : Mre) :
    ∀ s : Str, findMatch r s = none ↔ ¬ HasMatch r s := by
  intro s
  induction s with
  | nil =>
    rw [findMatch]
    constructor
    · intro h hm
      rcases hm with ⟨i, hi⟩
      have hdrop : ([] : Str).drop i = [] := by simp
      rw [hdrop] at hi
      have := (mrunHead_isSome_iff r []).mpr hi
      rcases Option.isSome_iff_exists.mp this with ⟨n, hn⟩
      rw [hn] at h
      cases h
    · intro h
      cases hh : mrunHead r [] with
      | some n =>
        exfalso
        exact h ⟨0, by
          rw [List.drop_nil]
          exact (mrunHead_isSome_iff r []).mp (by rw [hh]; simp)⟩
      | none => rfl
  | cons c rest ih =>
    rw [findMatch]
    cases hh : mrunHead r (c :: rest) with
    | some n =>
      constructor
      · intro h; cases h
      · intro h
        exfalso
        exact h ⟨0, by
          rw [List.drop_zero]
          exact (mrunHead_isSome_iff r _).mp (by rw [hh]; simp)⟩
    | none =>
      have hnostart : ¬ StartsMatch r (c :: rest) := by
        intro hs
        have := (mrunHead_isSome_iff r _).mpr hs
        rw [hh] at this
        cases this
      constructor
      · intro h hm
        have hrest : findMatch r rest = none := by
          cases hf : findMatch r rest with
          | none => rfl
          | some p => rw [hf] at h; cases h
        rcases hm with ⟨i, hi⟩
        cases i with
        | zero => exact hnostart (by simpa using hi)
        | succ i' => exact (ih.mp hrest) ⟨i', by simpa using hi⟩
      · intro h
        have hnone : ¬ HasMatch r rest := by
          intro hm
          rcases hm with ⟨i, hi⟩
          exact h ⟨i + 1, by simpa using hi⟩
        rw [ih.mpr hnone]
        rfl

/-- Decomposition and leftmostness of a successful `findMatch`. -/
theorem findMatch_some_spec (r : Mre) :
    ∀ (s : Str) (i n : Nat), findMatch r s = some (i, n) →
      (∃ u v, s.drop i = u ++ v ∧ inL r u ∧ u.length = n)
      ∧ ∀ i' < i, ¬ StartsMatch r (s.drop i') := by
  intro s
  induction s with
  | nil =>
    intro i n h
    rw [findMatch] at h
    cases hh : mrunHead r [] with
    | some n' =>
      rw [hh] at h
      injection h with h'
      cases h'
      refine ⟨?_, by omega⟩
      simpa using mrunHead_some_spec r [] n hh
    | none => rw [hh] at h; cases h
  | cons c rest ih =>
    intro i n h
    rw [findMatch] at h
    cases hh : mrunHead r (c :: rest) with
    | some n' =>
      rw [hh] at h
      injection h with h'
      cases h'
      refine ⟨?_, by omega⟩
      simpa using mrunHead_some_spec r (c :: rest) n hh
    | none =>
      rw [hh] at h
      rcases Option.map_eq_some'.mp h with ⟨⟨i', n'⟩, hf, hpair⟩
      cases hpair
      rcases ih i' n' hf with ⟨hdec, hleft⟩
      refine ⟨by simpa using hdec, ?_⟩
      intro i'' hi''
      cases i'' with
      | zero =>
        intro hs
        have := (mrunHead_isSome_iff r _).mpr (by simpa using hs)
        rw [hh] at this
        cases this
      | succ j =>
        have := hleft j (by omega)
        simpa using this

/-! ### Character closure of the patterns -/

/-- A case-insensitively matched word pairs each character with a literal
character. -/
theorem litEqB_forall :
    ∀ (l w : Str) (ci : Bool), litEqB l ci w = true →
      ∀ c' ∈ w, ∃ c ∈ l, ciEq ci c' c = true := by
  intro l
  induction l with
  | nil =>
    intro w ci h c' hc'
    unfold litEqB at h
    simp only [List.length_nil, beq_iff_eq, List.length_eq_zero,
      Bool.and_eq_true] at h
    rw [h.1] at hc'
    cases hc'
  | cons c l' ih =>
    intro w ci h c' hc'
    cases w with
    | nil => cases hc'
    | cons d w' =>
      unfold litEqB at h
      simp only [List.length_cons, beq_iff_eq, Nat.succ_inj,
        List.zip_cons_cons, List.all_cons, Bool.and_eq_true] at h
      obtain ⟨hlen, hcd, hall⟩ := h
      rcases List.mem_cons.mp hc' with h' | h'
      · subst h'
        exact ⟨c, List.mem_cons_self c l', hcd⟩
      · have hrec : litEqB l' ci w' = true := by
          unfold litEqB
          simp only [beq_iff_eq, Bool.and_eq_true]
          exact ⟨hlen, hall⟩
        rcases ih w' ci hrec c' h' with ⟨e, he, hci⟩
        exact ⟨e, List.mem_cons_of_mem c he, hci⟩

/-- A case-insensitively matched word of a nonempty literal starts with a
character paired with the literal's head. -/
theorem litEqB_head (c₀ : Char) (l' w : Str) (ci : Bool)
    (h : litEqB (c₀ :: l') ci w = true) :
    ∃ c' w', w = c' :: w' ∧ ciEq ci c' c₀ = true := by
  cases w with
  | nil =>
    unfold litEqB at h
    simp at h
  | cons d w' =>
    unfold litEqB at h
    simp only [List.length_cons, beq_iff_eq, Nat.succ_inj,
      List.zip_cons_cons, List.all_cons, Bool.and_eq_true] at h
    exact ⟨d, w', rfl, h.2.1⟩

/-- All characters of a word of `r` satisfy any class the regex is closed
under. -/
theorem inL_chars {P : Char → Bool} :
    ∀ (r : Mre), litsClosedUnder P r → ∀ w, inL r w → ∀ c ∈ w, P c = true := by
  intro r
  induction r with
  | eps =>
    intro _ w hw c hc
    cases hw
    cases hc
  | lit l ci =>
    intro hcl w hw c hc
    rcases litEqB_forall l w ci hw c hc with ⟨d, hd, hci⟩
    exact hcl c d hd hci
  | one p =>
    intro hcl w hw c hc
    rcases hw with ⟨d, hw', hp⟩
    subst hw'
    rcases List.mem_singleton.mp hc with rfl
    exact hcl c hp
  | cls p lo =>
    intro hcl w hw c hc
    exact hcl c (hw.2 c hc)
  | opt1 p =>
    intro hcl w hw c hc
    rcases hw with hw' | ⟨d, hw', hp⟩
    · subst hw'; cases hc
    · subst hw'
      rcases List.mem_singleton.mp hc with rfl
      exact hcl c hp
  | seq a b iha ihb =>
    intro hcl w hw c hc
    rcases hw with ⟨u, v, hw', hu, hv⟩
    subst hw'
    rcases List.mem_append.mp hc with h' | h'
    · exact iha hcl.1 u hu c h'
    · exact ihb hcl.2 v hv c h'
  | alt a b iha ihb =>
    intro hcl w hw c hc
    rcases hw with hw' | hw'
    · exact iha hcl.1 w hw' c hc
    · exact ihb hcl.2 w hw' c hc

/-- A word of a head-closed regex is nonempty and starts with a `P`
character. -/
theorem inL_head {P : Char → Bool} :
    ∀ (r : Mre), headClosedUnder P r → ∀ w, inL r w →
      ∃ c t, w = c :: t ∧ P c = true := by
  intro r
  induction r with
  | eps => intro hcl; cases hcl
  | lit l ci =>
    intro hcl w hw
    obtain ⟨hne, hhd⟩ := hcl
    rcases List.exists_cons_of_ne_nil hne with ⟨c₀, l', hl⟩
    subst hl
    rcases litEqB_head c₀ l' w ci hw with ⟨c', w', hw', hci⟩
    exact ⟨c', w', hw', hhd c' c₀ rfl hci⟩
  | one p =>
    intro hcl w hw
    rcases hw with ⟨d, hw', hp⟩
    exact ⟨d, [], hw', hcl d hp⟩
  | cls p lo =>
    intro hcl w hw
    obtain ⟨hlo, hcls⟩ := hcl
    rcases hw with ⟨hlen, hall⟩
    cases w with
    | nil => simp at hlen; omega
    | cons c t => exact ⟨c, t, rfl, hcls c (hall c (List.mem_cons_self c t))⟩
  | opt1 p => intro hcl; cases hcl
  | seq a b iha ihb =>
    intro hcl w hw
    rcases hw with ⟨u, v, hw', hu, hv⟩
    rcases iha hcl u hu with ⟨c, t, hu', hP⟩
    exact ⟨c, t ++ v, by rw [hw', hu']; rfl, hP⟩
  | alt a b iha ihb =>
    intro hcl w hw
    rcases hw with hw' | hw'
    · exact iha hcl.1 w hw'
    · exact ihb hcl.2 w hw'

/-- A class excluding both brackets is bracket-free. -/
theorem noBracket_of_class (p : Char → Bool) (h1 : p '[' = false)
    (h2 : p ']' = false) : ∀ c, p c = true → noBracketCh c = true := by
  intro c hc
  by_cases hb1 : c = '['
  · subst hb1; rw [hc] at h1; cases h1
  · by_cases hb2 : c = ']'
    · subst hb2; rw [hc] at h2; cases h2
    · simp [noBracketCh, hb1, hb2]

/-- JavaScript whitespace characters are unchanged by `toLower` (they are
outside the basic-latin uppercase range). -/
theorem toLower_of_isJsSpace (c : Char) (h : isJsSpace c = true) :
    c.toLower = c := by
  have hn : ¬(c.toNat ≥ 65 ∧ c.toNat ≤ 90) := by
    unfold isJsSpace at h
    simp only [Bool.or_eq_true, beq_iff_eq, Bool.and_eq_true,
      decide_eq_true_eq] at h
    repeat' rcases h with h | h
    all_goals first
      | decide
      | (subst h; decide)
      | omega
  unfold Char.toLower
  rw [if_neg hn]

/-- Characters matching a case-insensitive literal with bracket-free
lowercase forms are bracket-free. -/
theorem lit_ci_noBracket (l : Str)
    (hl : ∀ c ∈ l, c.toLower ≠ '[' ∧ c.toLower ≠ ']') :
    ∀ c' c, c ∈ l → ciEq true c' c = true → noBracketCh c' = true := by
  intro c' c hc hci
  have hci' : c'.toLower = c.toLower := by
    unfold ciEq at hci
    simpa using hci
  by_cases hb1 : c' = '['
  · subst hb1
    have hfix : ('[' : Char).toLower = '[' := by decide
    rw [hfix] at hci'
    exact absurd hci'.symm (hl c hc).1
  · by_cases hb2 : c' = ']'
    · subst hb2
      have hfix : (']' : Char).toLower = ']' := by decide
      rw [hfix] at hci'
      exact absurd hci'.symm (hl c hc).2
    · simp [noBracketCh, hb1, hb2]

/-- Characters matching a case-sensitive literal with all characters in `P`
are in `P`. -/
theorem lit_cs_closed (P : Char → Bool) (l : Str)
    (hl : ∀ c ∈ l, P c = true) :
    ∀ c' c, c ∈ l → ciEq false c' c = true → P c' = true := by
  intro c' c hc hci
  have : c' = c := by
    unfold ciEq at hci
    simpa using hci
  subst this
  exact hl c' hc

/-- Characters matching a case-insensitive literal whose lowercase forms
are not whitespace are not whitespace. -/
theorem lit_ci_nonSpace (l : Str)
    (hl : ∀ c ∈ l, isJsSpace c.toLower = false) :
    ∀ c' c, c ∈ l → ciEq true c' c = true → isNonSpace c' = true := by
  intro c' c hc hci
  have hci' : c'.toLower = c.toLower := by
    unfold ciEq at hci
    simpa using hci
  unfold isNonSpace
  cases hs : isJsSpace c' with
  | false => rfl
  | true =>
    exfalso
    have hfix : c'.toLower = c' := toLower_of_isJsSpace c' hs
    rw [hfix] at hci'
    rw [hci'] at hs
    rw [hl c hc] at hs
    cases hs

/-- A literal whose characters (and their lowercase forms) are not
whitespace heads a match with a non-space character. -/
theorem lit_headNonSpace (l : Str) (ci : Bool) (hne : l ≠ [])
    (hl : ∀ c ∈ l.take 1, isJsSpace c = false ∧ isJsSpace c.toLower = false) :
    headClosedUnder isNonSpace (.lit l ci) := by
  refine ⟨hne, ?_⟩
  intro c' c hc hci
  have hmem : c ∈ l.take 1 := by
    cases l with
    | nil => cases hc
    | cons d t =>
      injection hc with hc'
      rw [← hc']
      simp
  cases ci with
  | false =>
    have hcc : c' = c := by
      unfold ciEq at hci
      simpa using hci
    subst hcc
    unfold isNonSpace
    rw [(hl c' hmem).1]
    rfl
  | true =>
    have hci' : c'.toLower = c.toLower := by
      unfold ciEq at hci
      simpa using hci
    unfold isNonSpace
    cases hs : isJsSpace c' with
    | false => rfl
    | true =>
      exfalso
      have hfix : c'.toLower = c' := toLower_of_isJsSpace c' hs
      rw [hfix] at hci'
      rw [hci'] at hs
      rw [(hl c hmem).2] at hs
      cases hs

/-- Pattern 1 is closed under bracket-free characters. -/
theorem credAssignPat_noBracket : litsClosedUnder noBracketCh credAssignPat :=
  ⟨⟨⟨lit_ci_noBracket _ (by decide),
     noBracket_of_class _ (by decide) (by decide),
     lit_ci_noBracket _ (by decide)⟩,
    lit_ci_noBracket _ (by decide), lit_ci_noBracket _ (by decide),
    lit_ci_noBracket _ (by decide), lit_ci_noBracket _ (by decide),
    lit_ci_noBracket _ (by decide), lit_ci_noBracket _ (by decide)⟩,
   noBracket_of_class _ (by decide) (by decide),
   noBracket_of_class _ (by decide) (by decide),
   noBracket_of_class _ (by decide) (by decide),
   noBracket_of_class _ (by decide) (by decide)⟩

/-- Pattern 2 is closed under bracket-free characters. -/
theorem apiKeyPat_noBracket : litsClosedUnder noBracketCh apiKeyPat :=
  ⟨⟨lit_cs_closed _ _ (by decide), lit_cs_closed _ _ (by decide),
    lit_cs_closed _ _ (by decide), lit_cs_closed _ _ (by decide),
    lit_cs_closed _ _ (by decide), lit_cs_closed _ _ (by decide),
    ⟨lit_cs_closed _ _ (by decide),
     noBracket_of_class _ (by decide) (by decide),
     lit_cs_closed _ _ (by decide)⟩,
    lit_cs_closed _ _ (by decide), lit_cs_closed _ _ (by decide)⟩,
   noBracket_of_class _ (by decide) (by decide)⟩

/-- Pattern 3 is closed under bracket-free characters. -/
theorem pemHeaderPat_noBracket : litsClosedUnder noBracketCh pemHeaderPat :=
  ⟨lit_cs_closed _ _ (by decide),
   ⟨lit_cs_closed _ _ (by decide), lit_cs_closed _ _ (by decide),
    lit_cs_closed _ _ (by decide), lit_cs_closed _ _ (by decide), trivial⟩,
   lit_cs_closed _ _ (by decide)⟩

/-- Pattern 5 is closed under bracket-free characters. -/
theorem jwtPat_noBracket : litsClosedUnder noBracketCh jwtPat :=
  ⟨lit_cs_closed _ _ (by decide),
   noBracket_of_class _ (by decide) (by decide),
   lit_cs_closed _ _ (by decide), lit_cs_closed _ _ (by decide),
   noBracket_of_class _ (by decide) (by decide),
   lit_cs_closed _ _ (by decide),
   noBracket_of_class _ (by decide) (by decide)⟩

/-- Pattern 4 is closed under non-space characters: a database-URI match
contains no whitespace. -/
theorem dbUriPat_nonSpace : litsClosedUnder isNonSpace dbUriPat :=
  ⟨⟨⟨lit_ci_nonSpace _ (by decide), lit_ci_nonSpace _ (by decide), trivial⟩,
    ⟨lit_ci_nonSpace _ (by decide), lit_ci_nonSpace _ (by decide), trivial⟩,
    lit_ci_nonSpace _ (by decide), lit_ci_nonSpace _ (by decide)⟩,
   lit_cs_closed _ _ (by decide),
   fun c hc => hc,
   lit_cs_closed _ _ (by decide),
   fun c hc => hc,
   lit_cs_closed _ _ (by decide),
   fun c hc => hc⟩

/-- Pattern 1 matches start with a non-space character. -/
theorem credAssignPat_headNonSpace : headClosedUnder isNonSpace credAssignPat :=
  ⟨lit_headNonSpace _ _ (by decide) (by decide),
   lit_headNonSpace _ _ (by decide) (by decide),
   lit_headNonSpace _ _ (by decide) (by decide),
   lit_headNonSpace _ _ (by decide) (by decide),
   lit_headNonSpace _ _ (by decide) (by decide),
   lit_headNonSpace _ _ (by decide) (by decide),
   lit_headNonSpace _ _ (by decide) (by decide)⟩

/-- Pattern 2 matches start with a non-space character. -/
theorem apiKeyPat_headNonSpace : headClosedUnder isNonSpace apiKeyPat :=
  ⟨lit_headNonSpace _ _ (by decide) (by decide),
   lit_headNonSpace _ _ (by decide) (by decide),
   lit_headNonSpace _ _ (by decide) (by decide),
   lit_headNonSpace _ _ (by decide) (by decide),
   lit_headNonSpace _ _ (by decide) (by decide),
   lit_headNonSpace _ _ (by decide) (by decide),
   lit_headNonSpace _ _ (by decide) (by decide),
   lit_headNonSpace _ _ (by decide) (by decide),
   lit_headNonSpace _ _ (by decide) (by decide)⟩

/-- Pattern 3 matches start with a non-space character. -/
theorem pemHeaderPat_headNonSpace : headClosedUnder isNonSpace pemHeaderPat :=
  lit_headNonSpace _ _ (by decide) (by decide)

/-- Pattern 4 matches start with a non-space character. -/
theorem dbUriPat_headNonSpace : headClosedUnder isNonSpace dbUriPat :=
  ⟨lit_headNonSpace _ _ (by decide) (by decide),
   lit_headNonSpace _ _ (by decide) (by decide),
   lit_headNonSpace _ _ (by decide) (by decide),
   lit_headNonSpace _ _ (by decide) (by decide)⟩

/-- Pattern 5 matches start with a non-space character. -/
theorem jwtPat_headNonSpace : headClosedUnder isNonSpace jwtPat :=
  lit_headNonSpace _ _ (by decide) (by decide)

/-- No substring of the redaction marker matches pattern 1. -/
theorem credAssignPat_marker_clean :
    hasMatchB credAssignPat redactionMarker = false := by decide

/-- No substring of the redaction marker matches pattern 2. -/
theorem apiKeyPat_marker_clean :
    hasMatchB apiKeyPat redactionMarker = false := by decide

/-- No substring of the redaction marker matches pattern 3. -/
theorem pemHeaderPat_marker_clean :
    hasMatchB pemHeaderPat redactionMarker = false := by decide

/-- No substring of the redaction marker matches pattern 4. -/
theorem dbUriPat_marker_clean :
    hasMatchB dbUriPat redactionMarker = false := by decide

/-- No substring of the redaction marker matches pattern 5. -/
theorem jwtPat_marker_clean :
    hasMatchB jwtPat redactionMarker = false := by decide

/-! ### Structure of a global replace pass -/

/-- Splitting an equal append at a longer left part. -/
theorem append_eq_of_le (a w u v : Str) (h : a ++ w = u ++ v)
    (hle : a.length ≤ u.length) :
    ∃ u', u = a ++ u' ∧ u' ++ v = w := by
  refine ⟨w.take (u.length - a.length), ?_, ?_⟩
  · conv_lhs => rw [show u = (u ++ v).take u.length from by simp, ← h]
    rw [List.take_append_eq_append_take, List.take_of_length_le hle]
  · have hv : v = w.drop (u.length - a.length) := by
      have hv0 : v = (u ++ v).drop u.length := by simp
      rw [hv0, ← h, List.drop_append_eq_append_drop,
        List.drop_of_length_le hle, List.nil_append]
    rw [hv, List.take_append_drop]

/-- Dropping inside the taken part then appending the remainder is a plain
drop. -/
theorem drop_take_append (s : Str) (i j : Nat) (hj : j ≤ i) :
    (s.take i).drop j ++ s.drop i = s.drop j := by
  rw [List.drop_take]
  have h1 : s.drop i = (s.drop j).drop (i - j) := by
    rw [List.drop_drop]
    congr 1
    omega
  rw [h1, List.take_append_drop]

/-- A successful `findMatch` lies within the string. -/
theorem findMatch_bounds (r : Mre) :
    ∀ (s : Str) (i n : Nat), findMatch r s = some (i, n) →
      (∀ w, inL r w → w ≠ []) → 0 < n ∧ i + n ≤ s.length := by
  intro s i n h hq
  rcases findMatch_some_spec r s i n h with ⟨⟨u, v, hdec, hin, hlen⟩, _⟩
  have hu : u ≠ [] := hq u hin
  have hn : 0 < n := by
    rw [← hlen]
    cases u with
    | nil => exact absurd rfl hu
    | cons c t => simp
  have hlen2 : (s.drop i).length = n + v.length := by
    rw [hdec, List.length_append, hlen]
  rw [List.length_drop] at hlen2
  constructor
  · exact hn
  · omega

/-- `replaceAll` is one full pass of leftmost replacements. -/
theorem replaceAllFuel_toRepOut (q : Mre) (marker : Str)
    (hq : ∀ w, inL q w → w ≠ []) :
    ∀ (fuel : Nat) (s : Str), s.length < fuel →
      RepOut q marker s (replaceAllFuel q marker fuel s) := by
  intro fuel
  induction fuel with
  | zero => intro s h; omega
  | succ fuel ih =>
    intro s hs
    rw [replaceAllFuel]
    cases hf : findMatch q s with
    | none => exact .noMatch hf
    | some pr =>
      obtain ⟨i, n⟩ := pr
      obtain ⟨hn, hbound⟩ := findMatch_bounds q s i n hf hq
      dsimp only
      rw [if_neg (by omega)]
      refine .rep hf hn (ih (s.drop (i + n)) ?_)
      rw [List.length_drop]
      omega

/-- `replaceAll` satisfies the pass relation. -/
theorem replaceAll_toRepOut (q : Mre) (marker : Str)
    (hq : ∀ w, inL q w → w ≠ []) (s : Str) :
    RepOut q marker s (replaceAll q marker s) :=
  replaceAllFuel_toRepOut q marker hq (s.length + 1) s (by omega)

/-- Core cleanliness lemma: one replace pass with pattern `q` leaves no
match of pattern `p`, provided (i) `q`-matches are nonempty and start with
a non-space character, (ii) no `p`-match can start inside the marker
(whatever follows it), (iii) a `p`-match that would reach into the marker
can be transferred back to one on the original continuation, and (iv)
every position where a `p`-match starts in the input also starts a
`q`-match (so it is replaced by this pass). -/
theorem repOut_clean (p q : Mre) (M : Str)
    (hqhead : ∀ w, inL q w → ∃ c t, w = c :: t ∧ isNonSpace c = true)
    (h1 : ∀ j, j < M.length → ∀ w, ¬ StartsMatch p (M.drop j ++ w))
    (h2 : ∀ a b c, StartsMatch p (a ++ M ++ b) →
        c ≠ [] → (∀ hh t, c = hh :: t → isNonSpace hh = true) →
        StartsMatch p (a ++ c))
    (hM : M ≠ []) :
    ∀ {s out}, RepOut q M s out →
      (∀ i, StartsMatch p (s.drop i) → StartsMatch q (s.drop i)) →
      ¬ HasMatch p out := by
  intro s out hrep
  induction hrep with
  | noMatch hf =>
    intro hstart hm
    rcases hm with ⟨i, hi⟩
    exact (findMatch_none_iff q _).mp hf ⟨i, hstart i hi⟩
  | rep hf hn hrec ih =>
    rename_i s' out' i n
    intro hstart
    have hq' : ∀ w, inL q w → w ≠ [] := by
      intro w hw
      rcases hqhead w hw with ⟨c, t, hw', _⟩
      rw [hw']
      simp
    obtain ⟨hnpos, hbound⟩ := findMatch_bounds q s' i n hf hq'
    rcases findMatch_some_spec q s' i n hf with ⟨⟨u, v, hdec, hin, hlen⟩, hleft⟩
    have htakelen : (s'.take i).length = i := by
      rw [List.length_take]
      omega
    intro hm
    rcases hm with ⟨j, hj⟩
    by_cases hji : j ≤ i
    · -- match starts in the kept prefix (or exactly at the marker)
      have hdrop1 : (s'.take i ++ M ++ out').drop j
          = (s'.take i).drop j ++ (M ++ out') := by
        rw [List.append_assoc, List.drop_append_of_le_length (by omega)]
      rw [hdrop1] at hj
      by_cases hjeq : j = i
      · -- exactly at the marker
        subst hjeq
        have hnil : (s'.take j).drop j = [] := by
          refine List.drop_of_length_le ?_
          rw [List.length_take]
          omega
        rw [hnil, List.nil_append] at hj
        have := h1 0 (by cases M with | nil => exact absurd rfl hM
                                      | cons c t => simp) out'
        rw [List.drop_zero] at this
        exact this hj
      · -- strictly before the marker: transfer back to the original text
        have hjlt : j < i := by omega
        rcases hqhead u hin with ⟨c₀, t₀, hu, hns⟩
        have hcne : s'.drop i ≠ [] := by
          rw [hdec, hu]
          simp
        have hchead : ∀ hh t, s'.drop i = hh :: t → isNonSpace hh = true := by
          intro hh t hdrop
          rw [hdec, hu] at hdrop
          injection hdrop with h1' h2'
          rw [← h1']
          exact hns
        have htrans := h2 ((s'.take i).drop j) out' (s'.drop i)
          (by rw [← List.append_assoc] at hj; exact hj) hcne hchead
        rw [drop_take_append s' i j (by omega)] at htrans
        exact hleft j hjlt (hstart j htrans)
    · by_cases hjm : j < i + M.length
      · -- match starts inside the marker
        have hlen1 : (s'.take i).length ≤ j := by
          rw [htakelen]; omega
        have hdrop2 : (s'.take i ++ M ++ out').drop j = M.drop (j - i) ++ out' := by
          rw [List.append_assoc, List.drop_append_eq_append_drop,
            List.drop_of_length_le hlen1, List.nil_append, htakelen,
            List.drop_append_eq_append_drop,
            show j - i - M.length = 0 from by omega, List.drop_zero]
        rw [hdrop2] at hj
        exact h1 (j - i) (by omega) out' hj
      · -- match starts after the marker: it is a match of the recursive output
        have hlen1 : (s'.take i).length ≤ j := by
          rw [htakelen]; omega
        have hdrop3 : (s'.take i ++ M ++ out').drop j
            = out'.drop (j - i - M.length) := by
          rw [List.append_assoc, List.drop_append_eq_append_drop,
            List.drop_of_length_le hlen1, List.nil_append, htakelen,
            List.drop_append_eq_append_drop,
            List.drop_of_length_le (show M.length ≤ j - i from by omega),
            List.nil_append]
        rw [hdrop3] at hj
        have hstart' : ∀ i', StartsMatch p ((s'.drop (i + n)).drop i') →
            StartsMatch q ((s'.drop (i + n)).drop i') := by
          intro i' hsm
          rw [List.drop_drop] at hsm ⊢
          exact hstart _ hsm
        exact ih hstart' ⟨j - i - M.length, hj⟩

/-! ### Per-pattern guards for the clean-output lemma -/

/-- Case-insensitive character equality means equal lowercase forms. -/
theorem ciEq_ci_toLower (d c : Char) (h : ciEq true d c = true) :
    d.toLower = c.toLower := by
  unfold ciEq at h
  simpa using h

/-- Peeling one character off a literal match. -/
theorem litEqB_cons (c : Char) (l w : Str) (ci : Bool)
    (h : litEqB (c :: l) ci w = true) :
    ∃ d w', w = d :: w' ∧ ciEq ci d c = true ∧ litEqB l ci w' = true := by
  cases w with
  | nil =>
    unfold litEqB at h
    simp at h
  | cons d w' =>
    unfold litEqB at h
    simp only [List.length_cons, beq_iff_eq, Nat.succ_inj, List.zip_cons_cons,
      List.all_cons, Bool.and_eq_true] at h
    refine ⟨d, w', rfl, h.2.1, ?_⟩
    unfold litEqB
    simp only [beq_iff_eq, Bool.and_eq_true]
    exact ⟨h.1, h.2.2⟩

/-- A case-sensitive literal matches exactly itself. -/
theorem litEqB_cs (l : Str) : ∀ w, litEqB l false w = true → w = l := by
  induction l with
  | nil =>
    intro w h
    unfold litEqB at h
    simp only [List.length_nil, beq_iff_eq, List.length_eq_zero,
      Bool.and_eq_true] at h
    exact h.1
  | cons c l' ih =>
    intro w h
    rcases litEqB_cons c l' w false h with ⟨d, w', hw, hdc, hrest⟩
    have hd : d = c := by
      unfold ciEq at hdc
      simpa using hdc
    rw [hw, hd, ih w' hrest]

/-- Every suffix of the marker still contains its closing bracket. -/
theorem marker_rbracket :
    ∀ j, j < redactionMarker.length → ']' ∈ redactionMarker.drop j := by
  decide

/-- Every suffix of the marker starting at or before index 20 contains a
space (the marker has spaces at indices 10 and 20). -/
theorem marker_space : ∀ j, j < 21 → ' ' ∈ redactionMarker.drop j := by
  decide

/-- The marker contains no at-sign. -/
theorem marker_no_at : '@' ∉ redactionMarker := by decide

/-- A match that fits inside the prefix `a` survives replacing the
continuation. -/
theorem startsMatch_extend_short (p : Mre) (a x c u v : Str)
    (h : a ++ x = u ++ v) (hin : inL p u) (hle : u.length ≤ a.length) :
    StartsMatch p (a ++ c) := by
  rcases append_eq_of_le u v a x h.symm hle with ⟨u', ha, -⟩
  exact ⟨u, u' ++ c, by rw [ha, List.append_assoc], hin⟩

/-- A match lying entirely inside a suffix of the marker contradicts the
marker being clean for the pattern. -/
theorem marker_clean_no_inner (p : Mre)
    (hclean : hasMatchB p redactionMarker = false)
    (j : Nat) (u v w : Str)
    (hdec : redactionMarker.drop j ++ w = u ++ v)
    (hin : inL p u) (hle : u.length ≤ (redactionMarker.drop j).length) :
    False := by
  rcases append_eq_of_le u v (redactionMarker.drop j) w hdec.symm hle with
    ⟨u', hMj, -⟩
  have hfm : findMatch p redactionMarker = none := by
    cases hfm' : findMatch p redactionMarker with
    | none => rfl
    | some pr =>
      unfold hasMatchB at hclean
      rw [hfm'] at hclean
      simp at hclean
  exact (findMatch_none_iff p redactionMarker).mp hfm ⟨j, u, u', hMj, hin⟩

/-- No match of a bracket-free, marker-clean pattern can start inside the
marker, whatever text follows it. -/
theorem h1_of_noBracket (p : Mre)
    (hcl : litsClosedUnder noBracketCh p)
    (hclean : hasMatchB p redactionMarker = false) :
    ∀ j, j < redactionMarker.length → ∀ w,
      ¬ StartsMatch p (redactionMarker.drop j ++ w) := by
  intro j hj w hs
  rcases hs with ⟨u, v, hdec, hin⟩
  by_cases hle : u.length ≤ (redactionMarker.drop j).length
  · exact marker_clean_no_inner p hclean j u v w hdec hin hle
  · push_neg at hle
    rcases append_eq_of_le (redactionMarker.drop j) w u v hdec (by omega) with
      ⟨u', hu, -⟩
    have hrb : ']' ∈ u := by
      rw [hu]
      exact List.mem_append_left _ (marker_rbracket j hj)
    exact absurd (inL_chars p hcl u hin ']' hrb) (by decide)

/-- A match of a bracket-free pattern that sees the marker lies entirely
before it, so any continuation may replace the marker. -/
theorem h2_of_noBracket (p : Mre) (hcl : litsClosedUnder noBracketCh p) :
    ∀ a b c, StartsMatch p (a ++ redactionMarker ++ b) →
      StartsMatch p (a ++ c) := by
  intro a b c hs
  rcases hs with ⟨u, v, hdec, hin⟩
  rw [List.append_assoc] at hdec
  by_cases hle : u.length ≤ a.length
  · exact startsMatch_extend_short p a (redactionMarker ++ b) c u v hdec hin hle
  · push_neg at hle
    rcases append_eq_of_le a (redactionMarker ++ b) u v hdec (by omega) with
      ⟨u', hu, hu'v⟩
    rcases u' with - | ⟨d, u''⟩
    · rw [List.append_nil] at hu
      rw [hu] at hle
      exact absurd hle (lt_irrefl _)
    · have hM : redactionMarker = '[' :: "REDACTED: Potential secret]".toList :=
        by decide
      rw [hM, List.cons_append] at hu'v
      have hd : d = '[' := by
        have h' : d :: (u'' ++ v) =
            '[' :: ("REDACTED: Potential secret]".toList ++ b) := hu'v
        injection h' with h1 _
      have hmem : '[' ∈ u := by
        rw [hu, hd]
        exact List.mem_append_right _ (List.mem_cons_self _ _)
      exact absurd (inL_chars p hcl u hin '[' hmem) (by decide)

/-- Introduction form for concatenation words. -/
theorem inL_seq_intro (A B : Mre) (u v w : Str) (h : w = u ++ v)
    (hu : inL A u) (hv : inL B v) : inL (.seq A B) w :=
  show ∃ x y, w = x ++ y ∧ inL A x ∧ inL B y from ⟨u, v, h, hu, hv⟩

/-- Introduction form for class-run words. -/
theorem inL_cls_intro (p : Char → Bool) (lo : Nat) (w : Str)
    (hlen : lo ≤ w.length) (hall : ∀ c ∈ w, p c = true) :
    inL (.cls p lo) w :=
  show lo ≤ w.length ∧ ∀ c ∈ w, p c = true from ⟨hlen, hall⟩

/-- Every database-URI match starts with three characters whose lowercase
forms are `mon`, `pos`, `mys` or `red`. -/
theorem dbUriPat_head3 (u : Str) (hin : inL dbUriPat u) :
    ∃ c0 c1 c2 t, u = c0 :: c1 :: c2 :: t ∧
      ((c0.toLower = 'm' ∧ c1.toLower = 'o' ∧ c2.toLower = 'n') ∨
       (c0.toLower = 'p' ∧ c1.toLower = 'o' ∧ c2.toLower = 's') ∨
       (c0.toLower = 'm' ∧ c1.toLower = 'y' ∧ c2.toLower = 's') ∨
       (c0.toLower = 'r' ∧ c1.toLower = 'e' ∧ c2.toLower = 'd')) := by
  rcases hin with ⟨s, rest, hu, hs, -⟩
  rcases hs with hA | hB | hC | hD
  · rcases hA with ⟨s1, s2, hs12, hA1, -⟩
    have hA1' : litEqB ['m', 'o', 'n', 'g', 'o', 'd', 'b'] true s1 = true := hA1
    rcases litEqB_cons 'm' _ s1 true hA1' with ⟨d0, w0, hw0, hc0, hA2⟩
    rcases litEqB_cons 'o' _ w0 true hA2 with ⟨d1, w1, hw1, hc1, hA3⟩
    rcases litEqB_cons 'n' _ w1 true hA3 with ⟨d2, w2, hw2, hc2, -⟩
    refine ⟨d0, d1, d2, w2 ++ s2 ++ rest, ?_, Or.inl ⟨?_, ?_, ?_⟩⟩
    · rw [hu, hs12, hw0, hw1, hw2]
      simp
    · rw [ciEq_ci_toLower d0 'm' hc0]; decide
    · rw [ciEq_ci_toLower d1 'o' hc1]; decide
    · rw [ciEq_ci_toLower d2 'n' hc2]; decide
  · rcases hB with ⟨s1, s2, hs12, hB1, -⟩
    have hB1' : litEqB ['p', 'o', 's', 't', 'g', 'r', 'e', 's'] true s1 = true :=
      hB1
    rcases litEqB_cons 'p' _ s1 true hB1' with ⟨d0, w0, hw0, hc0, hB2⟩
    rcases litEqB_cons 'o' _ w0 true hB2 with ⟨d1, w1, hw1, hc1, hB3⟩
    rcases litEqB_cons 's' _ w1 true hB3 with ⟨d2, w2, hw2, hc2, -⟩
    refine ⟨d0, d1, d2, w2 ++ s2 ++ rest, ?_, Or.inr (Or.inl ⟨?_, ?_, ?_⟩)⟩
    · rw [hu, hs12, hw0, hw1, hw2]
      simp
    · rw [ciEq_ci_toLower d0 'p' hc0]; decide
    · rw [ciEq_ci_toLower d1 'o' hc1]; decide
    · rw [ciEq_ci_toLower d2 's' hc2]; decide
  · have hC' : litEqB ['m', 'y', 's', 'q', 'l'] true s = true := hC
    rcases litEqB_cons 'm' _ s true hC' with ⟨d0, w0, hw0, hc0, hC2⟩
    rcases litEqB_cons 'y' _ w0 true hC2 with ⟨d1, w1, hw1, hc1, hC3⟩
    rcases litEqB_cons 's' _ w1 true hC3 with ⟨d2, w2, hw2, hc2, -⟩
    refine ⟨d0, d1, d2, w2 ++ rest, ?_, Or.inr (Or.inr (Or.inl ⟨?_, ?_, ?_⟩))⟩
    · rw [hu, hw0, hw1, hw2]
      simp
    · rw [ciEq_ci_toLower d0 'm' hc0]; decide
    · rw [ciEq_ci_toLower d1 'y' hc1]; decide
    · rw [ciEq_ci_toLower d2 's' hc2]; decide
  · have hD' : litEqB ['r', 'e', 'd', 'i', 's'] true s = true := hD
    rcases litEqB_cons 'r' _ s true hD' with ⟨d0, w0, hw0, hc0, hD2⟩
    rcases litEqB_cons 'e' _ w0 true hD2 with ⟨d1, w1, hw1, hc1, hD3⟩
    rcases litEqB_cons 'd' _ w1 true hD3 with ⟨d2, w2, hw2, hc2, -⟩
    refine ⟨d0, d1, d2, w2 ++ rest, ?_,
      Or.inr (Or.inr (Or.inr ⟨?_, ?_, ?_⟩))⟩
    · rw [hu, hw0, hw1, hw2]
      simp
    · rw [ciEq_ci_toLower d0 'r' hc0]; decide
    · rw [ciEq_ci_toLower d1 'e' hc1]; decide
    · rw [ciEq_ci_toLower d2 'd' hc2]; decide

/-- No database-URI match can start inside the marker: suffixes reaching a
space force one into the match, and the late suffixes cannot begin a scheme
name. -/
theorem dbUriPat_h1 :
    ∀ j, j < redactionMarker.length → ∀ w,
      ¬ StartsMatch dbUriPat (redactionMarker.drop j ++ w) := by
  intro j hj w hs
  rcases hs with ⟨u, v, hdec, hin⟩
  by_cases hle : u.length ≤ (redactionMarker.drop j).length
  · exact marker_clean_no_inner dbUriPat dbUriPat_marker_clean j u v w hdec
      hin hle
  · push_neg at hle
    rcases append_eq_of_le (redactionMarker.drop j) w u v hdec (by omega) with
      ⟨u', hu, -⟩
    by_cases hj20 : j < 21
    · have hsp : ' ' ∈ u := by
        rw [hu]
        exact List.mem_append_left _ (marker_space j hj20)
      exact absurd (inL_chars dbUriPat dbUriPat_nonSpace u hin ' ' hsp)
        (by decide)
    · rcases dbUriPat_head3 u hin with ⟨c0, c1, c2, t, hu3, hd⟩
      have hlen28 : redactionMarker.length = 28 := by decide
      rw [hlen28] at hj
      have hge : 21 ≤ j := by omega
      interval_cases j
      · rw [hu3, show redactionMarker.drop 21 = ['s', 'e', 'c', 'r', 'e', 't', ']']
          from by decide] at hu
        simp only [List.cons_append, List.nil_append] at hu
        injection hu with h0 hu
        subst h0
        rcases hd with hd | hd | hd | hd <;> exact absurd hd.1 (by decide)
      · rw [hu3, show redactionMarker.drop 22 = ['e', 'c', 'r', 'e', 't', ']']
          from by decide] at hu
        simp only [List.cons_append, List.nil_append] at hu
        injection hu with h0 hu
        subst h0
        rcases hd with hd | hd | hd | hd <;> exact absurd hd.1 (by decide)
      · rw [hu3, show redactionMarker.drop 23 = ['c', 'r', 'e', 't', ']']
          from by decide] at hu
        simp only [List.cons_append, List.nil_append] at hu
        injection hu with h0 hu
        subst h0
        rcases hd with hd | hd | hd | hd <;> exact absurd hd.1 (by decide)
      · rw [hu3, show redactionMarker.drop 24 = ['r', 'e', 't', ']']
          from by decide] at hu
        simp only [List.cons_append, List.nil_append] at hu
        injection hu with h0 hu
        injection hu with h1 hu
        injection hu with h2 hu
        subst h0
        subst h1
        subst h2
        rcases hd with hd | hd | hd | hd
        exacts [absurd hd.1 (by decide), absurd hd.1 (by decide),
          absurd hd.1 (by decide), absurd hd.2.2 (by decide)]
      · rw [hu3, show redactionMarker.drop 25 = ['e', 't', ']']
          from by decide] at hu
        simp only [List.cons_append, List.nil_append] at hu
        injection hu with h0 hu
        subst h0
        rcases hd with hd | hd | hd | hd <;> exact absurd hd.1 (by decide)
      · rw [hu3, show redactionMarker.drop 26 = ['t', ']']
          from by decide] at hu
        simp only [List.cons_append, List.nil_append] at hu
        injection hu with h0 hu
        subst h0
        rcases hd with hd | hd | hd | hd <;> exact absurd hd.1 (by decide)
      · rw [hu3, show redactionMarker.drop 27 = [']']
          from by decide] at hu
        simp only [List.cons_append, List.nil_append] at hu
        injection hu with h0 hu
        subst h0
        rcases hd with hd | hd | hd | hd <;> exact absurd hd.1 (by decide)

/-- A database-URI match that sees the marker cannot cross its `@`-separator
into the marker (the marker has no at-sign and a space at index 10), so the
overhang lies inside the final non-space run and any non-space continuation
restores a match. -/
theorem dbUriPat_h2 :
    ∀ a b c, StartsMatch dbUriPat (a ++ redactionMarker ++ b) → c ≠ [] →
      (∀ hh t, c = hh :: t → isNonSpace hh = true) →
      StartsMatch dbUriPat (a ++ c) := by
  intro a b c hs hcne hch
  rcases hs with ⟨u, v, hdec, hin⟩
  rw [List.append_assoc] at hdec
  by_cases hle : u.length ≤ a.length
  · exact startsMatch_extend_short dbUriPat a (redactionMarker ++ b) c u v
      hdec hin hle
  · push_neg at hle
    rcases append_eq_of_le a (redactionMarker ++ b) u v hdec (by omega) with
      ⟨u', hu, hu'v⟩
    have hu'ne : u' ≠ [] := by
      intro h0
      rw [h0, List.append_nil] at hu
      rw [hu] at hle
      exact absurd hle (lt_irrefl _)
    have hns : ∀ x ∈ u, isNonSpace x = true :=
      inL_chars dbUriPat dbUriPat_nonSpace u hin
    have hu'le : u'.length ≤ 10 := by
      by_contra hgt
      push_neg at hgt
      rcases append_eq_of_le (redactionMarker.take 11)
          (redactionMarker.drop 11 ++ b) u' v
          (by rw [← List.append_assoc, List.take_append_drop]; exact hu'v.symm)
          (by rw [show (redactionMarker.take 11).length = 11 from by decide]
              omega) with
        ⟨u'', hu'eq, -⟩
      have hsp : ' ' ∈ u := by
        rw [hu, hu'eq]
        exact List.mem_append_right _ (List.mem_append_left _ (by decide))
      exact absurd (hns ' ' hsp) (by decide)
    have hpref : ∀ x ∈ u', x ∈ redactionMarker := by
      rcases append_eq_of_le u' v redactionMarker b hu'v
          (by rw [show redactionMarker.length = 28 from by decide]; omega) with
        ⟨m', hMeq, -⟩
      intro x hx
      rw [hMeq]
      exact List.mem_append_left _ hx
    rcases hin with ⟨s, r1, hu0, hsch, hr1⟩
    rcases hr1 with ⟨l1, r2, hr1e, hl1, hr2⟩
    rcases hr2 with ⟨n1, r3, hr2e, hn1, hr3⟩
    rcases hr3 with ⟨l2, r4, hr3e, hl2, hr4⟩
    rcases hr4 with ⟨n2, r5, hr4e, hn2, hr5⟩
    rcases hr5 with ⟨l3, n3, hr5e, hl3, hn3⟩
    have hl3e : l3 = ['@'] := litEqB_cs _ l3 hl3
    obtain ⟨hn3len, hn3all⟩ := hn3
    have hueq : u = (s ++ (l1 ++ (n1 ++ (l2 ++ n2)))) ++ '@' :: n3 := by
      rw [hu0, hr1e, hr2e, hr3e, hr4e, hr5e, hl3e]
      simp
    have hn3ge : u'.length ≤ n3.length := by
      by_contra hlt
      push_neg at hlt
      have h2 : (s ++ (l1 ++ (n1 ++ (l2 ++ n2)))) ++ '@' :: n3 = a ++ u' := by
        rw [← hueq]
        exact hu
      have hlq : a.length ≤ (s ++ (l1 ++ (n1 ++ (l2 ++ n2)))).length := by
        have e1 := congrArg List.length h2
        simp only [List.length_append, List.length_cons] at e1
        simp only [List.length_append]
        omega
      rcases append_eq_of_le a u' (s ++ (l1 ++ (n1 ++ (l2 ++ n2))))
          ('@' :: n3) h2.symm hlq with ⟨q', -, hq'⟩
      have hat : '@' ∈ u' := by
        rw [← hq']
        exact List.mem_append_right _ (List.mem_cons_self _ _)
      exact marker_no_at (hpref '@' hat)
    have h3 : ((s ++ (l1 ++ (n1 ++ (l2 ++ n2)))) ++ ['@']) ++ n3 = a ++ u' := by
      rw [← hu, hueq]
      simp
    have hlen3 : ((s ++ (l1 ++ (n1 ++ (l2 ++ n2)))) ++ ['@']).length
        ≤ a.length := by
      have e1 := congrArg List.length h3
      simp only [List.length_append, List.length_cons, List.length_nil] at e1
      simp only [List.length_append, List.length_cons, List.length_nil]
      omega
    rcases append_eq_of_le ((s ++ (l1 ++ (n1 ++ (l2 ++ n2)))) ++ ['@']) n3
        a u' h3 hlen3 with ⟨m0, haeq, hm0⟩
    rcases c with - | ⟨hh, t⟩
    · exact absurd rfl hcne
    · have hhns : isNonSpace hh = true := hch hh t rfl
      have hall' : ∀ x ∈ m0 ++ [hh], isNonSpace x = true := by
        intro x hx
        rcases List.mem_append.mp hx with hx | hx
        · refine hn3all x ?_
          rw [← hm0]
          exact List.mem_append_left _ hx
        · rcases List.mem_singleton.mp hx with rfl
          exact hhns
      have h5 : inL (.cls isNonSpace 1) (m0 ++ [hh]) := by
        refine inL_cls_intro _ _ _ ?_ hall'
        have hle1 : (m0 ++ [hh]).length = m0.length + 1 := by simp
        omega
      have hat1 : inL (litCS "@") ['@'] :=
        show litEqB ['@'] false ['@'] = true from by decide
      have h45 : inL (.seq (litCS "@") (.cls isNonSpace 1))
          ('@' :: (m0 ++ [hh])) :=
        inL_seq_intro _ _ ['@'] (m0 ++ [hh]) _ rfl hat1 h5
      have h35 : inL (.seq (.cls isNonSpace 1)
            (.seq (litCS "@") (.cls isNonSpace 1)))
          (n2 ++ '@' :: (m0 ++ [hh])) :=
        inL_seq_intro _ _ n2 ('@' :: (m0 ++ [hh])) _ rfl hn2 h45
      have h25 : inL (.seq (litCS ":") (.seq (.cls isNonSpace 1)
            (.seq (litCS "@") (.cls isNonSpace 1))))
          (l2 ++ (n2 ++ '@' :: (m0 ++ [hh]))) :=
        inL_seq_intro _ _ l2 (n2 ++ '@' :: (m0 ++ [hh])) _ rfl hl2 h35
      have h15 : inL (.seq (.cls isNonSpace 1) (.seq (litCS ":")
            (.seq (.cls isNonSpace 1)
              (.seq (litCS "@") (.cls isNonSpace 1)))))
          (n1 ++ (l2 ++ (n2 ++ '@' :: (m0 ++ [hh])))) :=
        inL_seq_intro _ _ n1 (l2 ++ (n2 ++ '@' :: (m0 ++ [hh]))) _ rfl hn1 h25
      have h05 : inL (.seq (litCS "://") (.seq (.cls isNonSpace 1)
            (.seq (litCS ":") (.seq (.cls isNonSpace 1)
              (.seq (litCS "@") (.cls isNonSpace 1))))))
          (l1 ++ (n1 ++ (l2 ++ (n2 ++ '@' :: (m0 ++ [hh]))))) :=
        inL_seq_intro _ _ l1 (n1 ++ (l2 ++ (n2 ++ '@' :: (m0 ++ [hh])))) _
          rfl hl1 h15
      refine ⟨a ++ [hh], t, by simp, ?_⟩
      exact inL_seq_intro _ _ s
        (l1 ++ (n1 ++ (l2 ++ (n2 ++ '@' :: (m0 ++ [hh]))))) _
        (by rw [haeq]; simp) hsch h05

/-! ### Assembled per-pattern guards -/

/-- No credential-assignment match starts inside the marker. -/
theorem credAssignPat_h1 :
    ∀ j, j < redactionMarker.length → ∀ w,
      ¬ StartsMatch credAssignPat (redactionMarker.drop j ++ w) :=
  h1_of_noBracket _ credAssignPat_noBracket credAssignPat_marker_clean

/-- No API-key match starts inside the marker. -/
theorem apiKeyPat_h1 :
    ∀ j, j < redactionMarker.length → ∀ w,
      ¬ StartsMatch apiKeyPat (redactionMarker.drop j ++ w) :=
  h1_of_noBracket _ apiKeyPat_noBracket apiKeyPat_marker_clean

/-- No PEM-header match starts inside the marker. -/
theorem pemHeaderPat_h1 :
    ∀ j, j < redactionMarker.length → ∀ w,
      ¬ StartsMatch pemHeaderPat (redactionMarker.drop j ++ w) :=
  h1_of_noBracket _ pemHeaderPat_noBracket pemHeaderPat_marker_clean

/-- No JWT match starts inside the marker. -/
theorem jwtPat_h1 :
    ∀ j, j < redactionMarker.length → ∀ w,
      ¬ StartsMatch jwtPat (redactionMarker.drop j ++ w) :=
  h1_of_noBracket _ jwtPat_noBracket jwtPat_marker_clean

/-- Credential-assignment matches seeing the marker transfer to any
continuation. -/
theorem credAssignPat_h2 :
    ∀ a b c, StartsMatch credAssignPat (a ++ redactionMarker ++ b) →
      c ≠ [] → (∀ hh t, c = hh :: t → isNonSpace hh = true) →
      StartsMatch credAssignPat (a ++ c) :=
  fun a b c hs _ _ => h2_of_noBracket _ credAssignPat_noBracket a b c hs

/-- API-key matches seeing the marker transfer to any continuation. -/
theorem apiKeyPat_h2 :
    ∀ a b c, StartsMatch apiKeyPat (a ++ redactionMarker ++ b) →
      c ≠ [] → (∀ hh t, c = hh :: t → isNonSpace hh = true) →
      StartsMatch apiKeyPat (a ++ c) :=
  fun a b c hs _ _ => h2_of_noBracket _ apiKeyPat_noBracket a b c hs

/-- PEM-header matches seeing the marker transfer to any continuation. -/
theorem pemHeaderPat_h2 :
    ∀ a b c, StartsMatch pemHeaderPat (a ++ redactionMarker ++ b) →
      c ≠ [] → (∀ hh t, c = hh :: t → isNonSpace hh = true) →
      StartsMatch pemHeaderPat (a ++ c) :=
  fun a b c hs _ _ => h2_of_noBracket _ pemHeaderPat_noBracket a b c hs

/-- JWT matches seeing the marker transfer to any continuation. -/
theorem jwtPat_h2 :
    ∀ a b c, StartsMatch jwtPat (a ++ redactionMarker ++ b) →
      c ≠ [] → (∀ hh t, c = hh :: t → isNonSpace hh = true) →
      StartsMatch jwtPat (a ++ c) :=
  fun a b c hs _ _ => h2_of_noBracket _ jwtPat_noBracket a b c hs

/-- One redaction iteration with a guarded pattern leaves no match of that
pattern, whether or not the pattern matched the input. -/
theorem redactOne_clean (p : Mre)
    (hhead : headClosedUnder isNonSpace p)
    (h1 : ∀ j, j < redactionMarker.length → ∀ w,
        ¬ StartsMatch p (redactionMarker.drop j ++ w))
    (h2 : ∀ a b c, StartsMatch p (a ++ redactionMarker ++ b) → c ≠ [] →
        (∀ hh t, c = hh :: t → isNonSpace hh = true) →
        StartsMatch p (a ++ c))
    (content : Str) :
    ¬ HasMatch p (redactOne content p).1 := by
  have hqhead : ∀ w, inL p w → ∃ c t, w = c :: t ∧ isNonSpace c = true :=
    inL_head p hhead
  unfold redactOne
  by_cases hc : hasMatchB p content = true
  · rw [if_pos hc]
    exact repOut_clean p p redactionMarker hqhead h1 h2 (by decide)
      (replaceAll_toRepOut p redactionMarker
        (fun w hw => by rcases hqhead w hw with ⟨c, t, h', -⟩; rw [h']; simp)
        content)
      (fun _ h => h)
  · rw [if_neg hc]
    intro hm
    have hfm : findMatch p content = none := by
      cases hfm' : findMatch p content with
      | none => rfl
      | some pr =>
        unfold hasMatchB at hc
        rw [hfm'] at hc
        exact absurd rfl hc
    exact (findMatch_none_iff p content).mp hfm hm

/-- One redaction iteration with another guarded pattern keeps content clean
of a guarded pattern `p`. -/
theorem redactOne_preserve (p q : Mre)
    (hqh : headClosedUnder isNonSpace q)
    (h1 : ∀ j, j < redactionMarker.length → ∀ w,
        ¬ StartsMatch p (redactionMarker.drop j ++ w))
    (h2 : ∀ a b c, StartsMatch p (a ++ redactionMarker ++ b) → c ≠ [] →
        (∀ hh t, c = hh :: t → isNonSpace hh = true) →
        StartsMatch p (a ++ c))
    (content : Str) (hclean : ¬ HasMatch p content) :
    ¬ HasMatch p (redactOne content q).1 := by
  have hqhead : ∀ w, inL q w → ∃ c t, w = c :: t ∧ isNonSpace c = true :=
    inL_head q hqh
  unfold redactOne
  by_cases hc : hasMatchB q content = true
  · rw [if_pos hc]
    exact repOut_clean p q redactionMarker hqhead h1 h2 (by decide)
      (replaceAll_toRepOut q redactionMarker
        (fun w hw => by rcases hqhead w hw with ⟨c, t, h', -⟩; rw [h']; simp)
        content)
      (fun i h => absurd ⟨i, h⟩ hclean)
  · rw [if_neg hc]
    exact hclean

/-- The redaction loop unfolded over the five patterns in source order. -/
theorem redactStep_fst (content : Str) :
    (redactStep content).1 =
      (redactOne (redactOne (redactOne (redactOne
        (redactOne content credAssignPat).1 apiKeyPat).1 pemHeaderPat).1
          dbUriPat).1 jwtPat).1 := rfl

/-- **C6**: for every tool-result content, with secret redaction enabled the
sanitizer's pattern loop replaces every match of each secret pattern with
the fixed redaction marker, and the redacted content contains no match of
any of the five secret patterns (in particular of any pattern that matched
the original content). -/
theorem secret_patterns_redacted (content : Str) (p : Mre)
    (hp : p ∈ SECRET_PATTERNS) :
    hasMatchB p (redactStep content).1 = false := by
  have key : ¬ HasMatch p (redactStep content).1 := by
    rw [redactStep_fst]
    simp only [SECRET_PATTERNS, List.mem_cons, List.not_mem_nil,
      or_false] at hp
    rcases hp with rfl | rfl | rfl | rfl | rfl
    · apply redactOne_preserve _ jwtPat jwtPat_headNonSpace
        credAssignPat_h1 credAssignPat_h2
      apply redactOne_preserve _ dbUriPat dbUriPat_headNonSpace
        credAssignPat_h1 credAssignPat_h2
      apply redactOne_preserve _ pemHeaderPat pemHeaderPat_headNonSpace
        credAssignPat_h1 credAssignPat_h2
      apply redactOne_preserve _ apiKeyPat apiKeyPat_headNonSpace
        credAssignPat_h1 credAssignPat_h2
      exact redactOne_clean credAssignPat credAssignPat_headNonSpace
        credAssignPat_h1 credAssignPat_h2 content
    · apply redactOne_preserve _ jwtPat jwtPat_headNonSpace
        apiKeyPat_h1 apiKeyPat_h2
      apply redactOne_preserve _ dbUriPat dbUriPat_headNonSpace
        apiKeyPat_h1 apiKeyPat_h2
      apply redactOne_preserve _ pemHeaderPat pemHeaderPat_headNonSpace
        apiKeyPat_h1 apiKeyPat_h2
      exact redactOne_clean apiKeyPat apiKeyPat_headNonSpace
        apiKeyPat_h1 apiKeyPat_h2 _
    · apply redactOne_preserve _ jwtPat jwtPat_headNonSpace
        pemHeaderPat_h1 pemHeaderPat_h2
      apply redactOne_preserve _ dbUriPat dbUriPat_headNonSpace
        pemHeaderPat_h1 pemHeaderPat_h2
      exact redactOne_clean pemHeaderPat pemHeaderPat_headNonSpace
        pemHeaderPat_h1 pemHeaderPat_h2 _
    · apply redactOne_preserve _ jwtPat jwtPat_headNonSpace
        dbUriPat_h1 dbUriPat_h2
      exact redactOne_clean dbUriPat dbUriPat_headNonSpace
        dbUriPat_h1 dbUriPat_h2 _
    · exact redactOne_clean jwtPat jwtPat_headNonSpace
        jwtPat_h1 jwtPat_h2 _
  unfold hasMatchB
  rw [(findMatch_none_iff p ((redactStep content).1)).mpr key]
  rfl

/-- Witness for C6: the credential-assignment pattern is one of the secret
patterns, and redacting a content that contains a matching credential leaves
no match of the pattern. -/
theorem secret_patterns_redacted_witness :
    credAssignPat ∈ SECRET_PATTERNS ∧
      hasMatchB credAssignPat
        (redactStep ("password: su93rS3cretT0kenValue42".toList)).1 = false :=
  ⟨List.mem_cons_self _ _,
   secret_patterns_redacted ("password: su93rS3cretT0kenValue42".toList)
     credAssignPat (List.mem_cons_self _ _)⟩

end LittleBrother
